import Mathlib

/-!
# Proyecto2: a dictionary stored in a 26-way trie

Shallow embedding of `src/proyecto_2/trie.c` / `trie.h` and of the way
`user_input.c` and `main.c` call it.

Modelling conventions.

* A C string is a `List Char`: the characters before the terminating NUL.
* A `Trie *` is a value of `Trie`: `Trie.null` is `NULL`, `Trie.node` is a
  pointer to a `struct Trie`.  The program never shares a node between two
  parents, so the pointer graph is a tree and the value says all of it.
* Two things the C program can do have no defined result: indexing
  `children[]` outside `0..25`, and writing past the end of a `char` buffer.
  Functions that can do so return a result that says which one happened.
* `malloc` is taken to succeed.  It leaves `meaning` of a new node
  indeterminate; the model fixes it to the empty string.  No function reads
  `meaning` of a node whose `last` is `0`.
-/

namespace Proyecto2

/-! ## Data model (`trie.h`) -/

/-- Models `typedef struct Trie { struct Trie *children[26]; char meaning[600]; int last; } Trie;`
seen through a `Trie *`. -/
inductive Trie where
  | null : Trie
  | node (children : Fin 26 → Trie) (meaning : List Char) (last : Int) : Trie

/-- The size of the `meaning` field of a node: `char meaning[600]`. -/
def MEANING_SIZE : Nat := 600

/-- Value of `word[i] - 'a'`, as an `int`. -/
def charIndex (c : Char) : Int := (c.toNat : Int) - 97

/-- The subscript of `children[idx]`: defined only for `0 ≤ idx < 26`. -/
def slot (idx : Int) : Option (Fin 26) :=
  if h : 0 ≤ idx ∧ idx < 26 then some ⟨idx.toNat, by omega⟩ else none

/-- Value of `'a' + i`, the letter of child `i`. -/
def letter (i : Fin 26) : Char := Char.ofNat (97 + i.val)

/-- Assignment `node->children[i] = child`. -/
def setChild (children : Fin 26 → Trie) (i : Fin 26) (child : Trie) : Fin 26 → Trie :=
  fun j => if j = i then child else children j

/-- What went wrong in a call that did not return normally. -/
inductive Fault where
  /-- Subscript `children[idx]` was evaluated with `idx` outside `0..25`. -/
  | outOfBounds : Fault
  /-- Call of `strcpy` into `meaning[600]` of a node with a string of 600 or more characters. -/
  | nodeMeaningOverflow : Fault
  /-- Call of `sscanf` that stored a token of 200 or more characters into `word[200]`. -/
  | wordOverflow : Fault
  /-- Call of `sscanf` or `strncat` that made the text in `meaning[400]` 400 or more characters long. -/
  | meaningOverflow : Fault
  deriving DecidableEq, Repr

/-- Result of a call that updates the trie in place: `done t` is a normal
return with the trie now `t`; `fault f t` says that `f` happened when the
trie had been updated to `t`. -/
inductive Outcome where
  | done (t : Trie) : Outcome
  | fault (f : Fault) (t : Trie) : Outcome

/-- Rebuild the parent around the result of a call on one of its children. -/
def Outcome.map (g : Trie → Trie) : Outcome → Outcome
  | .done t => .done (g t)
  | .fault f t => .fault f (g t)

/-- Run `k` on the trie of a normal return; a fault stops the program. -/
def Outcome.andThen (o : Outcome) (k : Trie → Outcome) : Outcome :=
  match o with
  | .done t => k t
  | .fault f t => .fault f t

/-! ## `createNewTrieNode` -/

/-- Function `createNewTrieNode`: `last = 0`, all 26 children `NULL`. -/
def createNewTrieNode : Trie := .node (fun _ => .null) [] 0

/-- Children of the node `*p`; for `NULL`, of the node that
`if (!p) p = createNewTrieNode();` puts in its place. -/
def Trie.kids : Trie → Fin 26 → Trie
  | .null => fun _ => .null
  | .node children _ _ => children

/-- Field `meaning` of the node `*p`; for `NULL`, of the node that
`if (!p) p = createNewTrieNode();` puts in its place. -/
def Trie.text : Trie → List Char
  | .null => []
  | .node _ meaning _ => meaning

/-- Field `last` of the node `*p`; for `NULL`, of the node that
`if (!p) p = createNewTrieNode();` puts in its place. -/
def Trie.flag : Trie → Int
  | .null => 0
  | .node _ _ last => last

/-! ## `insert` -/

/-- Function `insert(&trie, word, meaning)`.  The guard `if (!*trie) *trie = createNewTrieNode()`
at the root and the guard `if (children[charIndex] == NULL) children[charIndex] =
createNewTrieNode()` at every step are the same test on the pointer about to
become `currentNode`; the recursion makes it once per node reached. -/
def insert : Trie → List Char → List Char → Outcome
  | trie, [], meaning =>
    if meaning.length < MEANING_SIZE then
      .done (.node trie.kids meaning 1)
    else
      .fault .nodeMeaningOverflow (.node trie.kids trie.text 1)
  | trie, c :: word, meaning =>
    match slot (charIndex c) with
    | none => .fault .outOfBounds (.node trie.kids trie.text trie.flag)
    | some i =>
      (insert (trie.kids i) word meaning).map
        (fun child => .node (setChild trie.kids i child) trie.text trie.flag)

/-! ## `searchMeaning` -/

/-- Function `searchMeaning(trie, word)`: the string returned, or `none` when
`children[]` is indexed outside `0..25`. -/
def searchMeaning : Trie → List Char → Option (List Char)
  | .null, _ => some []
  | .node _ meaning last, [] => some (if last ≠ 0 then meaning else [])
  | .node children _ _, c :: word =>
    match slot (charIndex c) with
    | none => none
    | some i => searchMeaning (children i) word

/-- The spec's `lookup`, read off `searchMeaning` the way its doc comment and
`wordLookup` do: the empty string is "not found" (`none`), any other string is
the meaning found. -/
def lookup (trie : Trie) (word : List Char) : Option (Option (List Char)) :=
  (searchMeaning trie word).map (fun r => if r = [] then none else some r)

/-! ## `printWordsWithPrefix` and `searchWithPrefix` -/

/-- One line written to standard output by the prefix search. -/
inductive Line where
  /-- Output of `printf("%s: %s\n", prefix, trie->meaning)`. -/
  | entry (word : List Char) (meaning : List Char) : Line
  /-- Output of `printf("No se encontraron palabras con el prefijo '%s'\n", prefix)`. -/
  | noWords (pre : List Char) : Line
  deriving DecidableEq, Repr

/-- Function `printWordsWithPrefix(trie, prefix)`: the lines printed, in order.  The
test `children[i] != NULL` before the recursive call is the callee's own
`if (!trie) return;`. -/
def printWordsWithPrefix : Trie → List Char → List Line
  | .null, _ => []
  | .node children meaning last, pre =>
    (if last ≠ 0 then [Line.entry pre meaning] else []) ++
      (List.finRange 26).flatMap
        (fun i => printWordsWithPrefix (children i) (pre ++ [letter i]))

/-- The walk of `searchWithPrefix` from `currentNode` over the rest of the
prefix; `whole` is the full prefix, used in both `printf`s. -/
def searchWithPrefixFrom (whole : List Char) : Trie → List Char → Option (List Line)
  | currentNode, [] => some (printWordsWithPrefix currentNode whole)
  | currentNode, c :: rest =>
    match slot (charIndex c) with
    | none => none
    | some i =>
      match currentNode.kids i with
      | .null => some [Line.noWords whole]
      | child => searchWithPrefixFrom whole child rest

/-- Function `searchWithPrefix(trie, prefix)`: the lines printed, or `none` when
`children[]` is indexed outside `0..25`. -/
def searchWithPrefix (trie : Trie) (pre : List Char) : Option (List Line) :=
  match trie with
  | .null => some []
  | t => searchWithPrefixFrom pre t pre

/-- The spec's `prefix_search`: the (word, meaning) pairs among the printed lines. -/
def entries : List Line → List (List Char × List Char)
  | [] => []
  | .entry w m :: ls => (w, m) :: entries ls
  | .noWords _ :: ls => entries ls

/-! ## `loadDictFile` -/

/-- Size of `char line[600]`. -/
def LINE_SIZE : Nat := 600

/-- Size of `char word[200]`. -/
def WORD_SIZE : Nat := 200

/-- Size of `char meaning[400]`, the accumulator of `loadDictFile`. -/
def LOAD_MEANING_SIZE : Nat := 400

/-- The successive results of `fgets(line, sizeof(line), file)` on a file with
the given contents: each call takes characters up to and including the next
newline, at most `LINE_SIZE - 1` of them; `cur` is what the call under way has
read so far.  At end of file `fgets` returns what it has read, and `NULL`
when that is nothing. -/
def fgetsLines : List Char → List Char → List (List Char)
  | [], cur => if cur = [] then [] else [cur]
  | c :: rest, cur =>
    if c = '\n' ∨ cur.length + 1 = LINE_SIZE - 1 then
      (cur ++ [c]) :: fgetsLines rest []
    else
      fgetsLines rest (cur ++ [c])

/-- C `isspace` in the "C" locale: space, `\t`, `\n`, `\v`, `\f`, `\r`. -/
def isspace (c : Char) : Bool := c.toNat = 32 || (9 ≤ c.toNat && c.toNat ≤ 13)

/-- Value of `strlen(line) - 2`, computed in `size_t` (64 bits): the count given to `strncat`. -/
def strncatCount (line : List Char) : Nat := (line.length + 2 ^ 64 - 2) % 2 ^ 64

/-- What `strncat(meaning, line + 1, strlen(line) - 2)` appends: at most
`strlen(line) - 2` characters of the line from its second character on. -/
def contText (line : List Char) : List Char := (line.drop 1).take (strncatCount line)

/-- Call `sscanf(line, "%s %[^\n]", word, meaning)`: what it stores into `word` and
into `meaning` (`none`: that buffer is not written).  `%s` skips white space
and takes the characters up to the next white space; without any, the call
stops.  The blank in the format skips white space; `%[^\n]` takes the
characters up to the next newline and fails when there is none. -/
def sscanfWordMeaning (line : List Char) : Option (List Char) × Option (List Char) :=
  let s1 := line.dropWhile isspace
  let tok := s1.takeWhile (fun c => !isspace c)
  if tok = [] then (none, none)
  else
    let s2 := (s1.dropWhile (fun c => !isspace c)).dropWhile isspace
    let txt := s2.takeWhile (fun c => c != '\n')
    (some tok, if txt = [] then none else some txt)

/-- The variables of `loadDictFile` between two iterations of its loop. -/
structure Loader where
  trie : Trie
  isFirstLine : Int
  word : List Char
  meaning : List Char

/-- One iteration of the loop of `loadDictFile`: the variables afterwards, or
the fault that stopped the program. -/
inductive Step where
  | next (st : Loader) : Step
  | stop (f : Fault) (t : Trie) : Step

/-- Statement `if (!isFirstLine) { insert(trie, word, meaning); memset(meaning, 0, sizeof(meaning)); }`. -/
def commitPending (st : Loader) : Step :=
  if st.isFirstLine ≠ 0 then .next st
  else
    match insert st.trie st.word st.meaning with
    | .done t => .next { st with trie := t, meaning := [] }
    | .fault f t => .stop f t

/-- Statements `sscanf(line, "%s %[^\n]", word, meaning); isFirstLine = 0;`. -/
def scanLine (st : Loader) (line : List Char) : Step :=
  match sscanfWordMeaning line with
  | (none, _) => .next { st with isFirstLine := 0 }
  | (some tok, txt) =>
    if tok.length < WORD_SIZE then
      match txt with
      | none => .next { st with word := tok, isFirstLine := 0 }
      | some m =>
        if m.length < LOAD_MEANING_SIZE then
          .next { st with word := tok, meaning := m, isFirstLine := 0 }
        else .stop .meaningOverflow st.trie
    else .stop .wordOverflow st.trie

/-- The body of the `while` loop of `loadDictFile` for one line. -/
def loadLine (st : Loader) (line : List Char) : Step :=
  if line.head? = some '+' then
    if (st.meaning ++ contText line).length < LOAD_MEANING_SIZE then
      .next { st with meaning := st.meaning ++ contText line }
    else .stop .meaningOverflow st.trie
  else
    match commitPending st with
    | .next st' => scanLine st' line
    | .stop f t => .stop f t

/-- The `while` loop of `loadDictFile` over the lines `fgets` returns. -/
def runLines : Loader → List (List Char) → Step
  | st, [] => .next st
  | st, line :: rest =>
    match loadLine st line with
    | .next st' => runLines st' rest
    | .stop f t => .stop f t

/-- The variables of `loadDictFile` before the loop. -/
def Loader.start (trie : Trie) : Loader :=
  { trie := trie, isFirstLine := 1, word := [], meaning := [] }

/-- The loop of `loadDictFile` followed by the final `insert(trie, word, meaning)`. -/
def loadLines (trie : Trie) (lines : List (List Char)) : Outcome :=
  match runLines (Loader.start trie) lines with
  | .next st => insert st.trie st.word st.meaning
  | .stop f t => .fault f t

/-- Function `loadDictFile(&trie, filename)`; `file` is the contents of the file, `none`
when `fopen` fails. -/
def loadDictFile (trie : Trie) (file : Option (List Char)) : Outcome :=
  match file with
  | none => .done trie
  | some contents => loadLines trie (fgetsLines contents [])

/-! ## Vocabulary of the specification -/

/-- The spec's `[a-z]*`: every character is a lowercase letter. -/
def Lowercase (w : List Char) : Prop := ∀ c ∈ w, 'a' ≤ c ∧ c ≤ 'z'

instance (w : List Char) : Decidable (Lowercase w) := by
  unfold Lowercase; infer_instance

/-- The spec's `empty()`: the root `main` creates at start-up. -/
def empty : Trie := createNewTrieNode

/-- The node `current` stands on after the loop of `searchMeaning` or
`searchWithPrefix` has followed `word` from `trie`; `null` when the walk
leaves the trie. -/
def walk : Trie → List Char → Trie
  | t, [] => t
  | t, c :: word =>
    match slot (charIndex c) with
    | none => .null
    | some i => walk (t.kids i) word

/-- The meaning a node holds as a terminal node, if it is one. -/
def terminal : Trie → Option (List Char)
  | .null => none
  | .node _ meaning last => if last ≠ 0 then some meaning else none

/-- The dictionary a trie stands for: `stored t w = some m` when the node
reached by `w` exists, is terminal and holds `m`. -/
def stored (t : Trie) (w : List Char) : Option (List Char) := terminal (walk t w)

/-- The trie as the call left it. -/
def Outcome.trie : Outcome → Trie
  | .done t => t
  | .fault _ t => t

/-- A sequence of `insert` calls on the same trie, in order. -/
def insertAll : Trie → List (List Char × List Char) → Outcome
  | t, [] => .done t
  | t, (w, m) :: ops => (insert t w m).andThen (fun t' => insertAll t' ops)

/-- The meaning most recently inserted for `x` by the calls `ops`, if any. -/
def lastMeaning : List (List Char × List Char) → List Char → Option (List Char)
  | [], _ => none
  | (w, m) :: ops, x =>
    match lastMeaning ops x with
    | some m' => some m'
    | none => if w = x then some m else none

/-- Every call of `ops` is within the input domain of `insert`: a word of
lowercase letters and a meaning that fits `meaning[600]`. -/
def ValidOps (ops : List (List Char × List Char)) : Prop :=
  ∀ e ∈ ops, Lowercase e.1 ∧ e.2.length < MEANING_SIZE

instance (ops : List (List Char × List Char)) : Decidable (ValidOps ops) := by
  unfold ValidOps; infer_instance

/-- The words of the (word, meaning) pairs a prefix search printed, in order. -/
def words (ls : List Line) : List (List Char) := (entries ls).map Prod.fst

/-- Number of nodes of a trie. -/
def nodeCount : Trie → Nat
  | .null => 0
  | .node children _ _ => 1 + ((List.finRange 26).map (fun i => nodeCount (children i))).sum

/-- An entry of a dictionary file (spec §6): its word, the meaning text on its
entry line, and the contents of its continuation lines. -/
structure Entry where
  word : List Char
  meaning : List Char
  continuations : List (List Char)

/-- The lines of an entry in the file: `word meaning`, then one line `+text`
for each continuation, every line ended by a newline. -/
def Entry.lines (e : Entry) : List (List Char) :=
  (e.word ++ ' ' :: e.meaning ++ ['\n']) :: e.continuations.map (fun k => '+' :: k ++ ['\n'])

/-- The contents of the dictionary file made of the given entries. -/
def dictFile (es : List Entry) : List Char := (es.flatMap Entry.lines).flatten

/-- The meaning the spec gives an entry: the text of its entry line followed
by the contents of its continuation lines, with nothing in between. -/
def Entry.fullMeaning (e : Entry) : List Char := e.meaning ++ e.continuations.flatten

/-- An entry within the reference format and its bounds: a word of one or
more lowercase letters that fits `word[200]`; a meaning text without newline
that starts where the white space after the word ends; continuation contents
without newline; the whole meaning fits `meaning[400]` and the entry line fits
`line[600]`. -/
def Entry.WellFormed (e : Entry) : Prop :=
  Lowercase e.word ∧ e.word ≠ [] ∧ e.word.length < WORD_SIZE ∧
  '\n' ∉ e.meaning ∧ (∀ c, e.meaning.head? = some c → isspace c = false) ∧
  (∀ k ∈ e.continuations, '\n' ∉ k) ∧
  e.fullMeaning.length < LOAD_MEANING_SIZE ∧
  e.word.length + e.meaning.length + 2 ≤ LINE_SIZE - 1

/-- The node reached from the root by following `w` exists and is terminal. -/
def IsTerminalAt (t : Trie) (w : List Char) : Prop :=
  ∃ k mn l, walk t w = .node k mn l ∧ l ≠ 0

/-- The length of the longest prefix of `w` whose path exists below the node
`t`: the number of letters the loop of `insert` follows before it has to
create a node. -/
def pathLen : Trie → List Char → Nat
  | _, [] => 0
  | t, c :: w =>
    match slot (charIndex c) with
    | none => 0
    | some i =>
      match t.kids i with
      | .null => 0
      | .node k mn l => 1 + pathLen (.node k mn l) w

/-- The number of calls of `printWordsWithPrefix` nested at the deepest point
of a call on `t`: the call itself and, below it, the deepest of the calls it
makes on its children.  No call is made on a `NULL` child. -/
def printDepth : Trie → Nat
  | .null => 0
  | .node children _ _ =>
    1 + ((List.finRange 26).map (fun i => printDepth (children i))).foldr max 0

/-- The height of a trie that has a root: the number of letters on its longest
path from the root. -/
def height (t : Trie) : Nat := printDepth t - 1

/-- The length of the longest word among the `insert` calls `ops`, `0` when
there is none. -/
def longestWord (ops : List (List Char × List Char)) : Nat :=
  (ops.map (fun e => e.1.length)).foldr max 0

/-! ## Letters and child slots -/

theorem slot_letter : ∀ i : Fin 26, slot (charIndex (letter i)) = some i := by decide

theorem letter_lt : ∀ i j : Fin 26, i < j → letter i < letter j := by decide

theorem slot_some_iff {c : Char} {i : Fin 26} :
    slot (charIndex c) = some i ↔ c.toNat = 97 + i.val := by
  unfold slot charIndex
  constructor
  · intro h
    split at h
    · simp only [Option.some.injEq] at h
      have := congrArg Fin.val h
      simp only at this
      omega
    · simp at h
  · intro h
    have hi := i.isLt
    rw [dif_pos (by omega)]
    simp only [Option.some.injEq]
    apply Fin.ext
    simp only
    omega

theorem letter_of_slot {c : Char} {i : Fin 26} (h : slot (charIndex c) = some i) :
    letter i = c := by
  have h1 := slot_some_iff.1 h
  unfold letter
  rw [← h1]
  exact Char.ofNat_toNat c

theorem slot_of_lower {c : Char} (h : 'a' ≤ c ∧ c ≤ 'z') :
    ∃ i, slot (charIndex c) = some i := by
  have h1 : 97 ≤ c.toNat ∧ c.toNat ≤ 122 := h
  exact ⟨⟨c.toNat - 97, by omega⟩, slot_some_iff.2 (by simp only; omega)⟩

theorem lower_of_slot {c : Char} {i : Fin 26} (h : slot (charIndex c) = some i) :
    'a' ≤ c ∧ c ≤ 'z' := by
  have h1 := slot_some_iff.1 h
  have hi := i.isLt
  have h2 : 97 ≤ c.toNat ∧ c.toNat ≤ 122 := by omega
  exact h2

theorem lowercase_cons {c : Char} {w : List Char} :
    Lowercase (c :: w) ↔ ('a' ≤ c ∧ c ≤ 'z') ∧ Lowercase w := by
  simp [Lowercase]

theorem lowercase_nil : Lowercase [] := by simp [Lowercase]

theorem slot_eq_none_of_not_lower {c : Char} (h : ¬ ('a' ≤ c ∧ c ≤ 'z')) :
    slot (charIndex c) = none := by
  cases hs : slot (charIndex c) with
  | none => rfl
  | some i => exact absurd (lower_of_slot hs) h

/-! ## `insert` on words of lowercase letters -/

theorem setChild_same (k : Fin 26 → Trie) (i : Fin 26) (a : Trie) : setChild k i a i = a := by
  simp [setChild]

theorem setChild_other (k : Fin 26 → Trie) {i j : Fin 26} (a : Trie) (h : j ≠ i) :
    setChild k i a j = k j := by
  simp [setChild, h]

theorem setChild_setChild (k : Fin 26 → Trie) (i : Fin 26) (a b : Trie) :
    setChild (setChild k i a) i b = setChild k i b := by
  funext j
  by_cases h : j = i <;> simp [setChild, h]

theorem kids_node (k : Fin 26 → Trie) (m : List Char) (l : Int) :
    (Trie.node k m l).kids = k := rfl

theorem map_done (g : Trie → Trie) (t : Trie) : (Outcome.done t).map g = .done (g t) := rfl

theorem trie_done (t : Trie) : (Outcome.done t).trie = t := rfl

theorem insert_nil (t : Trie) (m : List Char) (hm : m.length < MEANING_SIZE) :
    insert t [] m = .done (.node t.kids m 1) := by
  simp [insert, hm]

theorem insert_cons (t : Trie) (c : Char) (w m : List Char) {i : Fin 26}
    (hi : slot (charIndex c) = some i) :
    insert t (c :: w) m = (insert (t.kids i) w m).map
      (fun child => .node (setChild t.kids i child) t.text t.flag) := by
  simp [insert, hi]

theorem insert_done (t : Trie) (w m : List Char) (hw : Lowercase w)
    (hm : m.length < MEANING_SIZE) : insert t w m = .done (insert t w m).trie := by
  induction w generalizing t with
  | nil => rw [insert_nil t m hm]; rfl
  | cons c w ih =>
    obtain ⟨hc, hw⟩ := lowercase_cons.1 hw
    obtain ⟨i, hi⟩ := slot_of_lower hc
    rw [insert_cons t c w m hi, ih (t.kids i) hw]
    rfl

theorem walk_null (w : List Char) : walk .null w = .null := by
  induction w with
  | nil => rfl
  | cons c w ih =>
    unfold walk
    cases slot (charIndex c) with
    | none => rfl
    | some i => exact ih

theorem stored_null (w : List Char) : stored .null w = none := by
  simp [stored, walk_null, terminal]

theorem stored_cons (t : Trie) (c : Char) (w : List Char) {i : Fin 26}
    (hi : slot (charIndex c) = some i) : stored t (c :: w) = stored (t.kids i) w := by
  simp [stored, walk, hi]

theorem stored_cons_none (t : Trie) (c : Char) (w : List Char)
    (hi : slot (charIndex c) = none) : stored t (c :: w) = none := by
  simp [stored, walk, hi, terminal]

theorem stored_nil_node (k : Fin 26 → Trie) (m : List Char) (l : Int) :
    stored (.node k m l) [] = if l ≠ 0 then some m else none := rfl

theorem stored_nil (t : Trie) :
    stored t [] = if t.flag ≠ 0 then some t.text else none := by
  cases t with
  | null => rfl
  | node k m l => rfl

/-- The dictionary after `insert t w m`: `w` now has meaning `m`, every other
word is as before. -/
theorem stored_insert (t : Trie) (w m v : List Char) (hw : Lowercase w)
    (hm : m.length < MEANING_SIZE) :
    stored (insert t w m).trie v = if v = w then some m else stored t v := by
  induction w generalizing t v with
  | nil =>
    rw [insert_nil t m hm]
    cases v with
    | nil => rfl
    | cons d v =>
      simp only [Outcome.trie, List.cons_ne_nil, if_false]
      cases hd : slot (charIndex d) with
      | none => rw [stored_cons_none _ d v hd, stored_cons_none _ d v hd]
      | some j => rw [stored_cons _ d v hd, stored_cons _ d v hd]; rfl
  | cons c w ih =>
    obtain ⟨hc, hw'⟩ := lowercase_cons.1 hw
    obtain ⟨i, hi⟩ := slot_of_lower hc
    rw [insert_cons t c w m hi, insert_done (t.kids i) w m hw' hm, map_done, trie_done]
    cases v with
    | nil =>
      simp only [List.nil_eq, List.cons_ne_nil, if_false]
      rw [stored_nil t]; rfl
    | cons d v =>
      cases hd : slot (charIndex d) with
      | none =>
        have hne : d ≠ c := by
          intro h; rw [h, hi] at hd; cases hd
        rw [stored_cons_none _ d v hd, stored_cons_none _ d v hd]
        simp [hne]
      | some j =>
        rw [stored_cons _ d v hd, stored_cons _ d v hd, kids_node]
        by_cases hji : j = i
        · have hdc : d = c := by rw [← letter_of_slot hd, ← letter_of_slot hi, hji]
          rw [hji, setChild_same, ih (t.kids i) v hw', hdc]
          simp
        · have hdc : d ≠ c := by
            intro h; rw [h, hi] at hd; exact hji (Option.some.inj hd).symm
          rw [setChild_other _ _ hji]
          simp [hdc]

/-- On a word of lowercase letters `searchMeaning` returns the stored
meaning, and the empty string when there is none. -/
theorem searchMeaning_eq_stored (t : Trie) (w : List Char) (hw : Lowercase w) :
    searchMeaning t w = some ((stored t w).getD []) := by
  induction w generalizing t with
  | nil =>
    cases t with
    | null => rfl
    | node k m l =>
      simp only [searchMeaning, stored_nil_node]
      by_cases hl : l ≠ 0 <;> simp [hl]
  | cons c w ih =>
    obtain ⟨hc, hw⟩ := lowercase_cons.1 hw
    obtain ⟨i, hi⟩ := slot_of_lower hc
    cases t with
    | null => simp [searchMeaning, stored_null]
    | node k m l =>
      rw [stored_cons _ c w hi]
      simp only [searchMeaning, hi, Trie.kids]
      exact ih (k i) hw

theorem stored_empty (w : List Char) : stored empty w = none := by
  cases w with
  | nil => rfl
  | cons c w =>
    cases hc : slot (charIndex c) with
    | none => exact stored_cons_none _ c w hc
    | some i => rw [stored_cons _ c w hc]; exact stored_null w

theorem walk_cons (t : Trie) (c : Char) (w : List Char) {i : Fin 26}
    (hi : slot (charIndex c) = some i) : walk t (c :: w) = walk (t.kids i) w := by
  simp [walk, hi]

theorem walk_cons_none (t : Trie) (c : Char) (w : List Char)
    (hi : slot (charIndex c) = none) : walk t (c :: w) = .null := by
  simp [walk, hi]

/-- The nodes after `insert t w m`: those of `t` and one for every prefix of `w`. -/
theorem walk_insert (t : Trie) (w m v : List Char) (hw : Lowercase w)
    (hm : m.length < MEANING_SIZE) :
    walk (insert t w m).trie v = .null ↔ (walk t v = .null ∧ ¬ v <+: w) := by
  induction w generalizing t v with
  | nil =>
    rw [insert_nil t m hm, trie_done]
    cases v with
    | nil => simp [walk]
    | cons d v =>
      cases hd : slot (charIndex d) with
      | none => simp [walk_cons_none _ d v hd]
      | some j => simp [walk_cons _ d v hd, kids_node]
  | cons c w ih =>
    obtain ⟨hc, hw'⟩ := lowercase_cons.1 hw
    obtain ⟨i, hi⟩ := slot_of_lower hc
    rw [insert_cons t c w m hi, insert_done (t.kids i) w m hw' hm, map_done, trie_done]
    cases v with
    | nil => simp [walk]
    | cons d v =>
      cases hd : slot (charIndex d) with
      | none =>
        have hne : d ≠ c := by
          intro h; rw [h, hi] at hd; cases hd
        simp [walk_cons_none _ d v hd, List.cons_prefix_cons, hne]
      | some j =>
        rw [walk_cons _ d v hd, walk_cons _ d v hd, kids_node]
        by_cases hji : j = i
        · have hdc : d = c := by rw [← letter_of_slot hd, ← letter_of_slot hi, hji]
          rw [hji, setChild_same, ih (t.kids i) v hw', hdc]
          simp [List.cons_prefix_cons]
        · have hdc : d ≠ c := by
            intro h; rw [h, hi] at hd; exact hji (Option.some.inj hd).symm
          rw [setChild_other _ _ hji]
          simp [List.cons_prefix_cons, hdc]

/-- Inserting over an earlier insertion of the same word gives the trie of the
later insertion alone. -/
theorem insert_insert (t : Trie) (w m1 m2 : List Char) (hw : Lowercase w)
    (hm1 : m1.length < MEANING_SIZE) (hm2 : m2.length < MEANING_SIZE) :
    insert (insert t w m1).trie w m2 = insert t w m2 := by
  induction w generalizing t with
  | nil =>
    rw [insert_nil t m1 hm1, trie_done, insert_nil _ m2 hm2, insert_nil t m2 hm2, kids_node]
  | cons c w ih =>
    obtain ⟨hc, hw'⟩ := lowercase_cons.1 hw
    obtain ⟨i, hi⟩ := slot_of_lower hc
    rw [insert_cons t c w m1 hi, insert_done (t.kids i) w m1 hw' hm1, map_done, trie_done,
      insert_cons _ c w m2 hi, insert_cons t c w m2 hi, kids_node, setChild_same,
      ih (t.kids i) hw']
    simp only [setChild_setChild]
    rfl

/-! ## C1 – C3: exact lookup after `insert` -/

/-- C1 (as stated, at the word `a` and the empty meaning): the claim asks for
`lookup = Some("")`, but `searchMeaning` returns the empty string, which is
its "not found" value. -/
theorem roundtrip_fails_for_empty_meaning :
    Lowercase ['a'] ∧ ['a'] ≠ [] ∧
      insert empty ['a'] [] = .done (insert empty ['a'] []).trie ∧
      searchMeaning (insert empty ['a'] []).trie ['a'] = some [] ∧
      lookup (insert empty ['a'] []).trie ['a'] = some none ∧
      lookup (insert empty ['a'] []).trie ['a'] ≠ some (some []) :=
  ⟨by decide, by decide, rfl, by decide, by decide, by decide⟩

/-- C1 (amended): for every word `w` of lowercase letters and every non-empty
meaning `m` that fits the node's `meaning[600]`, `insert` into the empty trie
returns and `lookup` of `w` then finds exactly `m`. -/
theorem insert_lookup_roundtrip (w m : List Char) (hw : Lowercase w) (hne : m ≠ [])
    (hm : m.length < MEANING_SIZE) :
    ∃ t, insert empty w m = .done t ∧ searchMeaning t w = some m ∧
      lookup t w = some (some m) := by
  refine ⟨(insert empty w m).trie, insert_done empty w m hw hm, ?_, ?_⟩
  · rw [searchMeaning_eq_stored _ w hw, stored_insert empty w m w hw hm]
    simp
  · unfold lookup
    rw [searchMeaning_eq_stored _ w hw, stored_insert empty w m w hw hm]
    simp [hne]

theorem insert_lookup_roundtrip_witness :
    ∃ t, insert empty "cat".toList "animal".toList = .done t ∧
      searchMeaning t "cat".toList = some "animal".toList ∧
      lookup t "cat".toList = some (some "animal".toList) :=
  insert_lookup_roundtrip "cat".toList "animal".toList (by decide) (by decide) (by decide)

/-- C2: for every trie `t`, word `w` of lowercase letters and meanings `m1`,
`m2` that fit the node's buffer, inserting `(w, m1)` and then `(w, m2)` gives
exactly the trie of inserting `(w, m2)` alone; the second insertion leaves the
set of nodes as it was, and `w` then looks up to `m2` (and to `m1` only if
`m1 = m2`). -/
theorem insert_overwrite (t : Trie) (w m1 m2 : List Char) (hw : Lowercase w)
    (hm1 : m1.length < MEANING_SIZE) (hm2 : m2.length < MEANING_SIZE) :
    ∃ t1 t2, insert t w m1 = .done t1 ∧ insert t1 w m2 = .done t2 ∧
      insert t w m2 = .done t2 ∧
      (∀ v, walk t2 v = .null ↔ walk t1 v = .null) ∧
      searchMeaning t2 w = some m2 ∧
      (searchMeaning t2 w = some m1 → m1 = m2) := by
  have h12 := insert_insert t w m1 m2 hw hm1 hm2
  have hs : searchMeaning (insert t w m2).trie w = some m2 := by
    rw [searchMeaning_eq_stored _ w hw, stored_insert t w m2 w hw hm2]
    simp
  refine ⟨(insert t w m1).trie, (insert t w m2).trie, insert_done t w m1 hw hm1, ?_,
    insert_done t w m2 hw hm2, ?_, hs, ?_⟩
  · rw [h12]; exact insert_done t w m2 hw hm2
  · intro v
    have e : (insert t w m2).trie = (insert (insert t w m1).trie w m2).trie := by rw [h12]
    rw [e, walk_insert _ w m2 v hw hm2, walk_insert t w m1 v hw hm1]
    tauto
  · intro h
    rw [hs] at h
    exact (Option.some.inj h).symm

theorem insert_overwrite_witness :
    ∃ t1 t2, insert empty "cat".toList "x".toList = .done t1 ∧
      insert t1 "cat".toList "y".toList = .done t2 ∧
      insert empty "cat".toList "y".toList = .done t2 ∧
      (∀ v, walk t2 v = .null ↔ walk t1 v = .null) ∧
      searchMeaning t2 "cat".toList = some "y".toList ∧
      (searchMeaning t2 "cat".toList = some "x".toList → "x".toList = "y".toList) :=
  insert_overwrite empty "cat".toList "x".toList "y".toList (by decide) (by decide) (by decide)

/-- C3: for every word `w` of lowercase letters, every meaning `m` that fits
the node's buffer and every word `v` of lowercase letters other than `w`
(a proper prefix of `w`, a proper extension of `w`, or any other word),
looking `v` up after inserting `(w, m)` into the empty trie is "not found". -/
theorem lookup_other_word_not_found (w m v : List Char) (hw : Lowercase w)
    (hm : m.length < MEANING_SIZE) (hv : Lowercase v) (hvw : v ≠ w) :
    ∃ t, insert empty w m = .done t ∧ searchMeaning t v = some [] ∧
      lookup t v = some none := by
  have hs : searchMeaning (insert empty w m).trie v = some [] := by
    rw [searchMeaning_eq_stored _ v hv, stored_insert empty w m v hw hm, if_neg hvw,
      stored_empty]
    rfl
  refine ⟨(insert empty w m).trie, insert_done empty w m hw hm, hs, ?_⟩
  unfold lookup
  rw [hs]
  rfl

theorem lookup_other_word_not_found_witness :
    (∃ t, insert empty "cat".toList "animal".toList = .done t ∧
      searchMeaning t "ca".toList = some [] ∧ lookup t "ca".toList = some none) ∧
    (∃ t, insert empty "cat".toList "animal".toList = .done t ∧
      searchMeaning t "cats".toList = some [] ∧ lookup t "cats".toList = some none) :=
  ⟨lookup_other_word_not_found "cat".toList "animal".toList "ca".toList
      (by decide) (by decide) (by decide) (by decide),
   lookup_other_word_not_found "cat".toList "animal".toList "cats".toList
      (by decide) (by decide) (by decide) (by decide)⟩

/-! ## Prefix search -/

theorem mem_entries (ls : List Line) (x m : List Char) :
    (x, m) ∈ entries ls ↔ Line.entry x m ∈ ls := by
  induction ls with
  | nil => simp [entries]
  | cons l ls ih =>
    cases l with
    | entry w mn => simp [entries, ih]
    | noWords q => simp [entries, ih]

theorem entries_append (l1 l2 : List Line) : entries (l1 ++ l2) = entries l1 ++ entries l2 := by
  induction l1 with
  | nil => rfl
  | cons l l1 ih =>
    cases l with
    | entry w mn => simp [entries, ih]
    | noWords q => simp [entries, ih]

theorem printWordsWithPrefix_node (k : Fin 26 → Trie) (mn : List Char) (l : Int)
    (p : List Char) :
    printWordsWithPrefix (.node k mn l) p =
      (if l ≠ 0 then [Line.entry p mn] else []) ++
        (List.finRange 26).flatMap (fun i => printWordsWithPrefix (k i) (p ++ [letter i])) := by
  simp only [printWordsWithPrefix]

/-- The lines `printWordsWithPrefix t p` prints: one for every word stored
under `t`, with `p` put in front. -/
theorem mem_printWordsWithPrefix (t : Trie) (p x m : List Char) :
    Line.entry x m ∈ printWordsWithPrefix t p ↔ ∃ s, x = p ++ s ∧ stored t s = some m := by
  induction t generalizing p with
  | null => simp [printWordsWithPrefix, stored_null]
  | node k mn l ih =>
    rw [printWordsWithPrefix_node, List.mem_append, List.mem_flatMap]
    constructor
    · rintro (h | ⟨i, _, h⟩)
      · by_cases hl : l ≠ 0
        · rw [if_pos hl, List.mem_singleton] at h
          injection h with h1 h2
          exact ⟨[], by simp [h1], by rw [stored_nil_node, if_pos hl, h2]⟩
        · rw [if_neg hl] at h
          cases h
      · obtain ⟨s, hx, hs⟩ := (ih i (p ++ [letter i])).1 h
        refine ⟨letter i :: s, by simp [hx], ?_⟩
        rw [stored_cons _ _ s (slot_letter i), kids_node]
        exact hs
    · rintro ⟨s, hx, hs⟩
      cases s with
      | nil =>
        left
        rw [stored_nil_node] at hs
        by_cases hl : l ≠ 0
        · rw [if_pos hl] at hs
          rw [if_pos hl, List.mem_singleton, hx, ← Option.some.inj hs]
          simp
        · rw [if_neg hl] at hs
          cases hs
      | cons c s =>
        right
        cases hc : slot (charIndex c) with
        | none =>
          rw [stored_cons_none _ c s hc] at hs
          cases hs
        | some i =>
          rw [stored_cons _ c s hc, kids_node] at hs
          refine ⟨i, List.mem_finRange i, (ih i (p ++ [letter i])).2 ⟨s, ?_, hs⟩⟩
          rw [hx, letter_of_slot hc]
          simp

theorem walk_append (t : Trie) (p s : List Char) : walk t (p ++ s) = walk (walk t p) s := by
  induction p generalizing t with
  | nil => rfl
  | cons c p ih =>
    cases hc : slot (charIndex c) with
    | none =>
      rw [List.cons_append, walk_cons_none _ c _ hc, walk_cons_none _ c _ hc, walk_null]
    | some i =>
      rw [List.cons_append, walk_cons _ c _ hc, walk_cons _ c _ hc, ih]

theorem searchWithPrefixFrom_cons (whole : List Char) (t : Trie) (c : Char) (rest : List Char)
    {i : Fin 26} (hi : slot (charIndex c) = some i) :
    searchWithPrefixFrom whole t (c :: rest) =
      match t.kids i with
      | .null => some [Line.noWords whole]
      | child => searchWithPrefixFrom whole child rest := by
  simp only [searchWithPrefixFrom, hi]

/-- The lines the walk of `searchWithPrefix` prints when the rest of the
prefix is lowercase: the words stored below `rest`, with `whole` put in front. -/
theorem searchWithPrefixFrom_spec (whole : List Char) (t : Trie) (rest : List Char)
    (hrest : Lowercase rest) :
    ∃ L, searchWithPrefixFrom whole t rest = some L ∧
      ∀ x m, Line.entry x m ∈ L ↔ ∃ s, x = whole ++ s ∧ stored t (rest ++ s) = some m := by
  induction rest generalizing t with
  | nil =>
    exact ⟨printWordsWithPrefix t whole, rfl, fun x m => mem_printWordsWithPrefix t whole x m⟩
  | cons c rest ih =>
    obtain ⟨hc, hr⟩ := lowercase_cons.1 hrest
    obtain ⟨i, hi⟩ := slot_of_lower hc
    rw [searchWithPrefixFrom_cons whole t c rest hi]
    cases hk : t.kids i with
    | null =>
      refine ⟨[Line.noWords whole], rfl, fun x m => ?_⟩
      constructor
      · intro h
        simp at h
      · rintro ⟨s, _, hs⟩
        rw [List.cons_append, stored_cons _ c _ hi, hk, stored_null] at hs
        cases hs
    | node k mn l =>
      obtain ⟨L, hL, hmem⟩ := ih (.node k mn l) hr
      refine ⟨L, hL, fun x m => ?_⟩
      rw [hmem x m]
      simp only [List.cons_append, stored_cons _ c _ hi, hk]

/-- The walk of `searchWithPrefix` when the path of the prefix leaves the
trie: the "no words" message and nothing else. -/
theorem searchWithPrefixFrom_missing (whole : List Char) (t : Trie) (rest : List Char)
    (hrest : Lowercase rest) (ht : t ≠ .null) (hmiss : walk t rest = .null) :
    searchWithPrefixFrom whole t rest = some [Line.noWords whole] := by
  induction rest generalizing t with
  | nil => exact absurd hmiss ht
  | cons c rest ih =>
    obtain ⟨hc, hr⟩ := lowercase_cons.1 hrest
    obtain ⟨i, hi⟩ := slot_of_lower hc
    rw [searchWithPrefixFrom_cons whole t c rest hi]
    rw [walk_cons _ c rest hi] at hmiss
    cases hk : t.kids i with
    | null => rfl
    | node k mn l =>
      rw [hk] at hmiss
      exact ih (.node k mn l) hr (by simp) hmiss

/-- The pairs `searchWithPrefix t p` yields for a lowercase prefix: the
stored words that begin with `p`, each with its stored meaning. -/
theorem searchWithPrefix_spec (t : Trie) (p : List Char) (hp : Lowercase p) :
    ∃ L, searchWithPrefix t p = some L ∧
      ∀ x m, (x, m) ∈ entries L ↔ (p <+: x ∧ stored t x = some m) := by
  have key : ∀ t' : Trie, ∀ x m, (∃ s, x = p ++ s ∧ stored t' (p ++ s) = some m) ↔
      (p <+: x ∧ stored t' x = some m) := by
    intro t' x m
    constructor
    · rintro ⟨s, hx, hs⟩
      exact ⟨⟨s, hx.symm⟩, by rw [hx]; exact hs⟩
    · rintro ⟨⟨s, hx⟩, hs⟩
      exact ⟨s, hx.symm, by rw [hx]; exact hs⟩
  cases t with
  | null =>
    refine ⟨[], rfl, fun x m => ?_⟩
    simp [entries, stored_null]
  | node k mn l =>
    obtain ⟨L, hL, hmem⟩ := searchWithPrefixFrom_spec p (.node k mn l) p hp
    refine ⟨L, hL, fun x m => ?_⟩
    rw [mem_entries, hmem x m, key]

theorem andThen_done (t : Trie) (k : Trie → Outcome) : (Outcome.done t).andThen k = k t := rfl

theorem validOps_cons {e : List Char × List Char} {ops : List (List Char × List Char)} :
    ValidOps (e :: ops) ↔ (Lowercase e.1 ∧ e.2.length < MEANING_SIZE) ∧ ValidOps ops := by
  simp [ValidOps]

/-- A sequence of valid `insert` calls returns, and the dictionary afterwards
maps every word to the meaning of its last insertion, or to what it had. -/
theorem insertAll_spec (t : Trie) (ops : List (List Char × List Char)) (hops : ValidOps ops) :
    insertAll t ops = .done (insertAll t ops).trie ∧
      ∀ x, stored (insertAll t ops).trie x =
        match lastMeaning ops x with
        | some m => some m
        | none => stored t x := by
  induction ops generalizing t with
  | nil => exact ⟨rfl, fun x => rfl⟩
  | cons e ops ih =>
    obtain ⟨w, m⟩ := e
    obtain ⟨⟨hw, hm⟩, hrest⟩ := validOps_cons.1 hops
    have h1 : insertAll t ((w, m) :: ops) = insertAll (insert t w m).trie ops := by
      show (insert t w m).andThen _ = _
      rw [insert_done t w m hw hm, andThen_done, trie_done]
    obtain ⟨hd, hst⟩ := ih (insert t w m).trie hrest
    rw [h1]
    refine ⟨hd, fun x => ?_⟩
    rw [hst x, stored_insert t w m x hw hm]
    simp only [lastMeaning]
    cases lastMeaning ops x with
    | some m' => rfl
    | none =>
      by_cases hwx : w = x
      · simp [hwx]
      · have hxw : ¬ x = w := fun h => hwx h.symm
        simp [hwx, hxw]

/-! ## Order of the prefix search -/

theorem words_append (l1 l2 : List Line) : words (l1 ++ l2) = words l1 ++ words l2 := by
  simp [words, entries_append]

theorem words_flatMap {α : Type} (l : List α) (f : α → List Line) :
    words (l.flatMap f) = l.flatMap (fun a => words (f a)) := by
  induction l with
  | nil => rfl
  | cons a l ih => simp only [List.flatMap_cons, words_append, ih]

theorem mem_words (ls : List Line) (x : List Char) :
    x ∈ words ls ↔ ∃ m, Line.entry x m ∈ ls := by
  simp only [words, List.mem_map, Prod.exists, exists_and_right, exists_eq_right, mem_entries]

theorem mem_words_print (t : Trie) (p x : List Char)
    (h : x ∈ words (printWordsWithPrefix t p)) : ∃ s, x = p ++ s := by
  obtain ⟨m, hm⟩ := (mem_words _ x).1 h
  obtain ⟨s, hs, _⟩ := (mem_printWordsWithPrefix t p x m).1 hm
  exact ⟨s, hs⟩

/-- The words `printWordsWithPrefix` prints come in strictly increasing
lexicographic order. -/
theorem printWordsWithPrefix_sorted (t : Trie) (p : List Char) :
    (words (printWordsWithPrefix t p)).Pairwise (List.Lex (· < ·)) := by
  induction t generalizing p with
  | null => simp [printWordsWithPrefix, words, entries]
  | node k mn l ih =>
    rw [printWordsWithPrefix_node, words_append, words_flatMap, List.pairwise_append,
      List.pairwise_flatMap]
    refine ⟨?_, ⟨fun i _ => ih i _, ?_⟩, ?_⟩
    · by_cases hl : l ≠ 0
      · rw [if_pos hl]; simp [words, entries]
      · rw [if_neg hl]; simp [words, entries]
    · refine (List.pairwise_lt_finRange 26).imp ?_
      intro i j hij x hx y hy
      obtain ⟨s1, h1⟩ := mem_words_print _ _ _ hx
      obtain ⟨s2, h2⟩ := mem_words_print _ _ _ hy
      rw [h1, h2, List.append_assoc, List.append_assoc]
      exact List.Lex.append_left _ (List.Lex.rel (letter_lt i j hij)) p
    · intro a ha b hb
      have hap : a = p := by
        by_cases hl : l ≠ 0
        · rw [if_pos hl] at ha; simpa [words, entries] using ha
        · rw [if_neg hl] at ha; simp [words, entries] at ha
      obtain ⟨i, _, hbi⟩ := List.mem_flatMap.1 hb
      obtain ⟨s, hs⟩ := mem_words_print _ _ _ hbi
      rw [hap, hs, List.append_assoc]
      have := List.Lex.append_left (· < ·) (List.Lex.nil : List.Lex (· < ·) [] ([letter i] ++ s)) p
      simpa using this

theorem searchWithPrefixFrom_path (whole : List Char) (t : Trie) (rest : List Char)
    (hrest : Lowercase rest) (hpath : walk t rest ≠ .null) :
    searchWithPrefixFrom whole t rest = some (printWordsWithPrefix (walk t rest) whole) := by
  induction rest generalizing t with
  | nil => rfl
  | cons c rest ih =>
    obtain ⟨hc, hr⟩ := lowercase_cons.1 hrest
    obtain ⟨i, hi⟩ := slot_of_lower hc
    rw [searchWithPrefixFrom_cons whole t c rest hi]
    rw [walk_cons _ c rest hi] at hpath ⊢
    cases hk : t.kids i with
    | null => rw [hk, walk_null] at hpath; exact absurd rfl hpath
    | node k mn l =>
      rw [hk] at hpath
      exact ih (.node k mn l) hr hpath

theorem searchWithPrefix_path (t : Trie) (p : List Char) (hp : Lowercase p)
    (hpath : walk t p ≠ .null) :
    searchWithPrefix t p = some (printWordsWithPrefix (walk t p) p) := by
  cases t with
  | null => rw [walk_null] at hpath; exact absurd rfl hpath
  | node k mn l => exact searchWithPrefixFrom_path p (.node k mn l) p hp hpath

/-- Two lists of words in strictly increasing lexicographic order that hold
the same words are the same list. -/
theorem sorted_words_unique (l1 l2 : List (List Char))
    (h1 : l1.Pairwise (List.Lex (· < ·))) (h2 : l2.Pairwise (List.Lex (· < ·)))
    (hmem : ∀ e, e ∈ l1 ↔ e ∈ l2) : l1 = l2 := by
  have irr : ∀ a : List Char, ¬ List.Lex (· < ·) a a := fun a h => lt_irrefl a h
  have asym : ∀ a b : List Char, List.Lex (· < ·) a b → List.Lex (· < ·) b a → False :=
    fun a b hab hba => lt_asymm (α := List Char) hab hba
  have nd : ∀ l : List (List Char), l.Pairwise (List.Lex (· < ·)) → l.Nodup := by
    intro l hl
    refine hl.imp ?_
    intro a b hab he
    rw [he] at hab
    exact irr _ hab
  have hperm : l1.Perm l2 := (List.perm_ext_iff_of_nodup (nd l1 h1) (nd l2 h2)).2 hmem
  haveI : IsAntisymm (List Char) (List.Lex (· < ·)) :=
    ⟨fun a b hab hba => (asym _ _ hab hba).elim⟩
  exact List.eq_of_perm_of_sorted hperm h1 h2

theorem sorted_words_nodup (l : List (List Char)) (hl : l.Pairwise (List.Lex (· < ·))) :
    l.Nodup := by
  refine hl.imp ?_
  intro a b hab he
  rw [he] at hab
  exact lt_irrefl (α := List Char) _ hab

theorem lastMeaning_isSome (ops : List (List Char × List Char)) (x : List Char) :
    (∃ m, lastMeaning ops x = some m) ↔ x ∈ ops.map Prod.fst := by
  induction ops with
  | nil => simp [lastMeaning]
  | cons e ops ih =>
    obtain ⟨w, m0⟩ := e
    simp only [lastMeaning, List.map_cons, List.mem_cons]
    rw [← ih]
    cases h : lastMeaning ops x with
    | some m' => simp
    | none =>
      by_cases hwx : w = x
      · simp [hwx]
      · have hxw : ¬ x = w := fun h => hwx h.symm
        simp [hwx, hxw]

theorem words_searchWithPrefix_sorted (t : Trie) (p : List Char) (L : List Line)
    (hp : Lowercase p) (hL : searchWithPrefix t p = some L) :
    (words L).Pairwise (List.Lex (· < ·)) := by
  cases t with
  | null =>
    have : L = [] := by
      have h : some ([] : List Line) = some L := hL
      exact (Option.some.inj h).symm
    rw [this]; simp [words, entries]
  | node k mn l =>
    by_cases hpath : walk (.node k mn l) p = .null
    · have hL' : searchWithPrefixFrom p (.node k mn l) p = some L := hL
      rw [searchWithPrefixFrom_missing p (.node k mn l) p hp (by simp) hpath] at hL'
      rw [← Option.some.inj hL']; simp [words, entries]
    · rw [searchWithPrefix_path _ p hp hpath] at hL
      rw [← Option.some.inj hL]
      exact printWordsWithPrefix_sorted _ p

/-- The dictionary of a trie built from the empty trie by valid `insert`
calls: every word has the meaning of its last insertion. -/
theorem stored_insertAll_empty (ops : List (List Char × List Char)) (hops : ValidOps ops)
    (x : List Char) : stored (insertAll empty ops).trie x = lastMeaning ops x := by
  rw [(insertAll_spec empty ops hops).2 x, stored_empty]
  cases lastMeaning ops x <;> rfl

/-! ## C4 – C6: prefix search -/

/-- C4: for every trie built from the empty trie by `insert` calls `ops`
(words of lowercase letters, meanings that fit the node's buffer) and every
lowercase prefix `p`, `searchWithPrefix` yields exactly the pairs `(x, m)`
where `x` begins with `p` and `m` is the meaning most recently inserted for
`x`: no stored word that begins with `p` is left out, nothing else is yielded. -/
theorem prefix_search_complete_sound (ops : List (List Char × List Char)) (p : List Char)
    (hops : ValidOps ops) (hp : Lowercase p) :
    ∃ t L, insertAll empty ops = .done t ∧ searchWithPrefix t p = some L ∧
      ∀ x m, (x, m) ∈ entries L ↔ (p <+: x ∧ lastMeaning ops x = some m) := by
  obtain ⟨L, hL, hmem⟩ := searchWithPrefix_spec (insertAll empty ops).trie p hp
  refine ⟨(insertAll empty ops).trie, L, (insertAll_spec empty ops hops).1, hL, ?_⟩
  intro x m
  rw [hmem x m, stored_insertAll_empty ops hops x]

theorem prefix_search_complete_sound_witness :
    (∃ t L, insertAll empty [("cat".toList, "a".toList), ("car".toList, "b".toList),
        ("dog".toList, "c".toList)] = .done t ∧
      searchWithPrefix t "ca".toList = some L ∧
      ∀ x m, (x, m) ∈ entries L ↔ ("ca".toList <+: x ∧
        lastMeaning [("cat".toList, "a".toList), ("car".toList, "b".toList),
          ("dog".toList, "c".toList)] x = some m)) ∧
    (searchWithPrefix (insertAll empty [("cat".toList, "a".toList), ("car".toList, "b".toList),
        ("dog".toList, "c".toList)]).trie "ca".toList
      = some [Line.entry "car".toList "b".toList, Line.entry "cat".toList "a".toList]) :=
  ⟨prefix_search_complete_sound [("cat".toList, "a".toList), ("car".toList, "b".toList),
      ("dog".toList, "c".toList)] "ca".toList (by decide) (by decide), by decide⟩

/-- C5: for every trie and every lowercase prefix `p` whose path exists,
`searchWithPrefix` prints what `printWordsWithPrefix` prints for the node at
the end of `p` (the node's own word first, then the subtrees of its children
in ascending letter order); the words come in strictly increasing
lexicographic order, each exactly once; the order is fixed by the set of words
yielded, so tries built from the same `insert` calls in another order yield
the same sequence of words. -/
theorem prefix_search_order (t : Trie) (p : List Char) (hp : Lowercase p)
    (hpath : walk t p ≠ .null) :
    ∃ L, searchWithPrefix t p = some L ∧
      L = printWordsWithPrefix (walk t p) p ∧
      (words L).Pairwise (List.Lex (· < ·)) ∧
      (words L).Nodup ∧
      (∀ t2 L2, searchWithPrefix t2 p = some L2 →
        (∀ x, x ∈ words L ↔ x ∈ words L2) → words L2 = words L) ∧
      (∀ ops1 ops2 : List (List Char × List Char), ValidOps ops1 → ops1.Perm ops2 →
        ∃ t1 t2 L1 L2, insertAll empty ops1 = .done t1 ∧ insertAll empty ops2 = .done t2 ∧
          searchWithPrefix t1 p = some L1 ∧ searchWithPrefix t2 p = some L2 ∧
          words L1 = words L2) := by
  have hL := searchWithPrefix_path t p hp hpath
  have hsorted := words_searchWithPrefix_sorted t p _ hp hL
  refine ⟨_, hL, rfl, hsorted, ?_, ?_, ?_⟩
  · exact sorted_words_nodup _ hsorted
  · intro t2 L2 hL2 hmem
    exact sorted_words_unique _ _ (words_searchWithPrefix_sorted t2 p L2 hp hL2) hsorted
      (fun e => (hmem e).symm)
  · intro ops1 ops2 hv1 hperm
    have hv2 : ValidOps ops2 := fun e he => hv1 e (hperm.mem_iff.2 he)
    obtain ⟨L1, hs1, hm1⟩ := searchWithPrefix_spec (insertAll empty ops1).trie p hp
    obtain ⟨L2, hs2, hm2⟩ := searchWithPrefix_spec (insertAll empty ops2).trie p hp
    refine ⟨_, _, L1, L2, (insertAll_spec empty ops1 hv1).1, (insertAll_spec empty ops2 hv2).1,
      hs1, hs2, ?_⟩
    refine sorted_words_unique _ _ (words_searchWithPrefix_sorted _ p L1 hp hs1)
      (words_searchWithPrefix_sorted _ p L2 hp hs2) (fun x => ?_)
    have key : ∀ (ops : List (List Char × List Char)) (L : List Line), ValidOps ops →
        (∀ x m, (x, m) ∈ entries L ↔ (p <+: x ∧ stored (insertAll empty ops).trie x = some m)) →
        (x ∈ words L ↔ (p <+: x ∧ x ∈ ops.map Prod.fst)) := by
      intro ops L hv hm
      rw [← lastMeaning_isSome]
      simp only [words, List.mem_map, Prod.exists, exists_and_right, exists_eq_right]
      constructor
      · rintro ⟨m, h⟩
        exact ⟨((hm x m).1 h).1, m, by rw [← stored_insertAll_empty ops hv x]; exact ((hm x m).1 h).2⟩
      · rintro ⟨h1, m, h2⟩
        exact ⟨m, (hm x m).2 ⟨h1, by rw [stored_insertAll_empty ops hv x]; exact h2⟩⟩
    rw [key ops1 L1 hv1 hm1, key ops2 L2 hv2 hm2, (hperm.map Prod.fst).mem_iff]

theorem prefix_search_order_witness :
    ∃ L, searchWithPrefix (insertAll empty [("cat".toList, "a".toList),
        ("car".toList, "b".toList), ("ca".toList, "c".toList)]).trie "ca".toList = some L ∧
      L = printWordsWithPrefix (walk (insertAll empty [("cat".toList, "a".toList),
        ("car".toList, "b".toList), ("ca".toList, "c".toList)]).trie "ca".toList) "ca".toList ∧
      (words L).Pairwise (List.Lex (· < ·)) ∧
      (words L).Nodup ∧
      (∀ t2 L2, searchWithPrefix t2 "ca".toList = some L2 →
        (∀ x, x ∈ words L ↔ x ∈ words L2) → words L2 = words L) ∧
      (∀ ops1 ops2 : List (List Char × List Char), ValidOps ops1 → ops1.Perm ops2 →
        ∃ t1 t2 L1 L2, insertAll empty ops1 = .done t1 ∧ insertAll empty ops2 = .done t2 ∧
          searchWithPrefix t1 "ca".toList = some L1 ∧
          searchWithPrefix t2 "ca".toList = some L2 ∧ words L1 = words L2) :=
  prefix_search_order _ "ca".toList (by decide) (fun h => Trie.noConfusion h)

/-- C6: for every trie and every lowercase prefix `p` whose walk from the
root leaves the trie (some letter of `p` has no child), `searchWithPrefix`
returns normally and yields no (word, meaning) pair; what it prints is the
"no words" message (nothing at all when the root itself is absent). -/
theorem prefix_search_missing_path (t : Trie) (p : List Char) (hp : Lowercase p)
    (hmiss : walk t p = .null) :
    ∃ L, searchWithPrefix t p = some L ∧ entries L = [] ∧
      (L = [Line.noWords p] ∨ (t = .null ∧ L = [])) := by
  cases t with
  | null => exact ⟨[], rfl, rfl, Or.inr ⟨rfl, rfl⟩⟩
  | node k mn l =>
    exact ⟨[Line.noWords p],
      searchWithPrefixFrom_missing p (.node k mn l) p hp (by simp) hmiss, rfl, Or.inl rfl⟩

theorem prefix_search_missing_path_witness :
    ∃ L, searchWithPrefix (insertAll empty [("cat".toList, "a".toList),
        ("car".toList, "b".toList), ("dog".toList, "c".toList)]).trie "xyz".toList = some L ∧
      entries L = [] ∧
      (L = [Line.noWords "xyz".toList] ∨
        ((insertAll empty [("cat".toList, "a".toList), ("car".toList, "b".toList),
          ("dog".toList, "c".toList)]).trie = .null ∧ L = [])) :=
  prefix_search_missing_path _ "xyz".toList (by decide) (by rfl)

/-! ## C10: `insert` on a word with a character outside `a-z` -/

theorem map_fault (g : Trie → Trie) (f : Fault) (t : Trie) :
    (Outcome.fault f t).map g = .fault f (g t) := rfl

theorem insert_cons_none (t : Trie) (c : Char) (w m : List Char)
    (hc : slot (charIndex c) = none) :
    insert t (c :: w) m = .fault .outOfBounds (.node t.kids t.text t.flag) := by
  simp [insert, hc]

/-- C10 (amended): for every trie `t` and every word with a character outside
`a-z`, `insert` does not return normally and signals no `InvalidWord`: it
follows the letters before the first such character, creating the nodes that
are missing, and then indexes `children[]` out of bounds.  Up to that point no
node has been marked terminal and no meaning has been changed; the nodes are
those of `t` and one for each prefix of the leading run of letters. -/
theorem insert_invalid_word (t : Trie) (w m : List Char) (hw : ¬ Lowercase w) :
    ∃ t', insert t w m = .fault .outOfBounds t' ∧
      (∀ v, stored t' v = stored t v) ∧
      (∀ v, walk t' v = .null ↔
        (walk t v = .null ∧ ¬ v <+: w.takeWhile (fun c => decide ('a' ≤ c ∧ c ≤ 'z')))) := by
  induction w generalizing t with
  | nil => exact absurd lowercase_nil hw
  | cons c w ih =>
    by_cases hc : 'a' ≤ c ∧ c ≤ 'z'
    · obtain ⟨i, hi⟩ := slot_of_lower hc
      have hw' : ¬ Lowercase w := fun h => hw (lowercase_cons.2 ⟨hc, h⟩)
      obtain ⟨child, hins, hst, hwk⟩ := ih (t.kids i) hw'
      refine ⟨_, by rw [insert_cons t c w m hi, hins, map_fault], ?_, ?_⟩
      · intro v
        cases v with
        | nil => rw [stored_nil t]; rfl
        | cons d v =>
          cases hd : slot (charIndex d) with
          | none => rw [stored_cons_none _ d v hd, stored_cons_none _ d v hd]
          | some j =>
            rw [stored_cons _ d v hd, stored_cons _ d v hd, kids_node]
            by_cases hji : j = i
            · rw [hji, setChild_same, hst v]
            · rw [setChild_other _ _ hji]
      · intro v
        have htw : (c :: w).takeWhile (fun c => decide ('a' ≤ c ∧ c ≤ 'z')) =
            c :: w.takeWhile (fun c => decide ('a' ≤ c ∧ c ≤ 'z')) := by
          simp [List.takeWhile_cons, hc]
        rw [htw]
        cases v with
        | nil => simp [walk]
        | cons d v =>
          cases hd : slot (charIndex d) with
          | none =>
            have hne : d ≠ c := by
              intro h; rw [h, hi] at hd; cases hd
            simp [walk_cons_none _ d v hd, List.cons_prefix_cons, hne]
          | some j =>
            rw [walk_cons _ d v hd, walk_cons _ d v hd, kids_node]
            by_cases hji : j = i
            · have hdc : d = c := by rw [← letter_of_slot hd, ← letter_of_slot hi, hji]
              rw [hji, setChild_same, hwk v, hdc]
              simp [List.cons_prefix_cons]
            · have hdc : d ≠ c := by
                intro h; rw [h, hi] at hd; exact hji (Option.some.inj hd).symm
              rw [setChild_other _ _ hji]
              simp [List.cons_prefix_cons, hdc]
    · have hs := slot_eq_none_of_not_lower hc
      refine ⟨_, insert_cons_none t c w m hs, ?_, ?_⟩
      · intro v
        cases v with
        | nil => rw [stored_nil t]; rfl
        | cons d v =>
          cases hd : slot (charIndex d) with
          | none => rw [stored_cons_none _ d v hd, stored_cons_none _ d v hd]
          | some j => rw [stored_cons _ d v hd, stored_cons _ d v hd, kids_node]
      · intro v
        have htw : (c :: w).takeWhile (fun c => decide ('a' ≤ c ∧ c ≤ 'z')) = [] := by
          simp [List.takeWhile_cons, hc]
        rw [htw]
        cases v with
        | nil => simp [walk]
        | cons d v =>
          cases hd : slot (charIndex d) with
          | none => simp [walk_cons_none _ d v hd]
          | some j => simp [walk_cons _ d v hd, kids_node]

/-- C10 (as stated, at `Cat1` and at `cat1` on the empty trie): `insert` has
no `InvalidWord` result; at the first character outside `a-z` it indexes
`children[]` out of bounds, and for `cat1` it has by then created the three
nodes of `c`, `a`, `t`, so the trie is not as it was. -/
theorem invalid_word_not_rejected :
    ¬ Lowercase "Cat1".toList ∧ ¬ Lowercase "cat1".toList ∧
      insert empty "Cat1".toList "x".toList
        = .fault .outOfBounds (insert empty "Cat1".toList "x".toList).trie ∧
      insert empty "cat1".toList "x".toList
        = .fault .outOfBounds (insert empty "cat1".toList "x".toList).trie ∧
      nodeCount empty = 1 ∧
      nodeCount (insert empty "cat1".toList "x".toList).trie = 4 :=
  ⟨by decide, by decide, rfl, rfl, by decide, by decide⟩

theorem insert_invalid_word_witness :
    ∃ t', insert empty "cat1".toList "x".toList = .fault .outOfBounds t' ∧
      (∀ v, stored t' v = stored empty v) ∧
      (∀ v, walk t' v = .null ↔
        (walk empty v = .null ∧
          ¬ v <+: "cat1".toList.takeWhile (fun c => decide ('a' ≤ c ∧ c ≤ 'z')))) :=
  insert_invalid_word empty "cat1".toList "x".toList (by decide)

/-! ## The loader: reading lines -/

theorem fgetsLines_line (body rest cur : List Char) (hnl : '\n' ∉ body)
    (hlen : cur.length + body.length + 1 ≤ LINE_SIZE - 1) :
    fgetsLines (body ++ '\n' :: rest) cur = (cur ++ body ++ ['\n']) :: fgetsLines rest [] := by
  induction body generalizing cur with
  | nil => simp [fgetsLines]
  | cons b body ih =>
    have hb : b ≠ '\n' := fun h => hnl (by simp [h])
    have hnl' : '\n' ∉ body := fun h => hnl (List.mem_cons_of_mem _ h)
    have hc : ¬ (b = '\n' ∨ cur.length + 1 = LINE_SIZE - 1) := by
      simp only [List.length_cons] at hlen
      rintro (h | h)
      · exact hb h
      · omega
    rw [List.cons_append, fgetsLines, if_neg hc, ih (cur ++ [b]) hnl']
    · simp
    · simp only [List.length_append, List.length_cons, List.length_nil] at hlen ⊢
      omega

/-- A file made of lines that end in a newline, have no other newline and
fit `line[600]` is read back line by line. -/
theorem fgetsLines_flatten (lines : List (List Char))
    (h : ∀ l ∈ lines, ∃ b, l = b ++ ['\n'] ∧ '\n' ∉ b ∧ b.length + 1 ≤ LINE_SIZE - 1) :
    fgetsLines lines.flatten [] = lines := by
  induction lines with
  | nil => rfl
  | cons l lines ih =>
    obtain ⟨b, hl, hnl, hlen⟩ := h l (List.mem_cons_self _ _)
    have h' : ∀ l' ∈ lines, ∃ b, l' = b ++ ['\n'] ∧ '\n' ∉ b ∧ b.length + 1 ≤ LINE_SIZE - 1 :=
      fun l' hl' => h l' (List.mem_cons_of_mem _ hl')
    rw [List.flatten_cons, hl, List.append_assoc, List.singleton_append,
      fgetsLines_line b _ [] hnl (by simpa using hlen), ih h']
    simp

theorem takeWhile_append_stop {p : Char → Bool} (w : List Char) (c : Char) (r : List Char)
    (hw : ∀ x ∈ w, p x = true) (hc : p c = false) : (w ++ c :: r).takeWhile p = w := by
  induction w with
  | nil => simp [List.takeWhile_cons, hc]
  | cons a w ih =>
    have ha := hw a (List.mem_cons_self _ _)
    simp only [List.cons_append, List.takeWhile_cons, ha, if_true]
    rw [ih (fun x hx => hw x (List.mem_cons_of_mem _ hx))]

theorem dropWhile_append_stop {p : Char → Bool} (w : List Char) (c : Char) (r : List Char)
    (hw : ∀ x ∈ w, p x = true) (hc : p c = false) : (w ++ c :: r).dropWhile p = c :: r := by
  induction w with
  | nil => simp [List.dropWhile_cons, hc]
  | cons a w ih =>
    have ha := hw a (List.mem_cons_self _ _)
    simp only [List.cons_append, List.dropWhile_cons, ha, if_true]
    rw [ih (fun x hx => hw x (List.mem_cons_of_mem _ hx))]

theorem takeWhile_all {p : Char → Bool} (w : List Char) (hw : ∀ x ∈ w, p x = true) :
    w.takeWhile p = w := by
  induction w with
  | nil => rfl
  | cons a w ih =>
    have ha := hw a (List.mem_cons_self _ _)
    simp only [List.takeWhile_cons, ha, if_true]
    rw [ih (fun x hx => hw x (List.mem_cons_of_mem _ hx))]

theorem isspace_of_lower {c : Char} (h : 'a' ≤ c ∧ c ≤ 'z') : isspace c = false := by
  have h1 : 97 ≤ c.toNat ∧ c.toNat ≤ 122 := h
  unfold isspace
  simp only [Bool.or_eq_false_iff, Bool.and_eq_false_iff, decide_eq_false_iff_not]
  omega

theorem isspace_blank : isspace ' ' = true := by decide

theorem isspace_newline : isspace '\n' = true := by decide

/-- What `sscanf` reads from an entry line `word meaning`, with or without
the final newline. -/
theorem sscanfWordMeaning_entryLine (w m nl : List Char) (hw : Lowercase w) (hw1 : w ≠ [])
    (hnl : '\n' ∉ m) (hhead : ∀ c, m.head? = some c → isspace c = false)
    (hend : nl = [] ∨ nl = ['\n']) :
    sscanfWordMeaning (w ++ ' ' :: m ++ nl) = (some w, if m = [] then none else some m) := by
  have hwns : ∀ x ∈ w, (fun c => !isspace c) x = true := by
    intro x hx
    simp [isspace_of_lower (hw x hx)]
  have h1 : (w ++ ' ' :: m ++ nl).dropWhile isspace = w ++ ' ' :: (m ++ nl) := by
    cases w with
    | nil => exact absurd rfl hw1
    | cons a w =>
      have ha : isspace a = false := isspace_of_lower (hw a (List.mem_cons_self _ _))
      simp [List.dropWhile_cons, ha]
  have h2 : (w ++ ' ' :: (m ++ nl)).takeWhile (fun c => !isspace c) = w :=
    takeWhile_append_stop w ' ' _ hwns (by simp [isspace_blank])
  have h3 : (w ++ ' ' :: (m ++ nl)).dropWhile (fun c => !isspace c) = ' ' :: (m ++ nl) :=
    dropWhile_append_stop w ' ' _ hwns (by simp [isspace_blank])
  have h4 : ((' ' :: (m ++ nl)).dropWhile isspace).takeWhile (fun c => c != '\n') = m := by
    rw [List.dropWhile_cons, if_pos isspace_blank]
    cases m with
    | nil =>
      rcases hend with h | h <;> subst h <;> simp [List.dropWhile_cons, isspace_newline]
    | cons a m =>
      have ha : isspace a = false := hhead a rfl
      have hall : ∀ x ∈ a :: m, (fun c => c != '\n') x = true := by
        intro x hx
        have : x ≠ '\n' := fun h => hnl (h ▸ hx)
        simp [this]
      rw [List.cons_append, List.dropWhile_cons, if_neg (by simp [ha]), ← List.cons_append]
      rcases hend with h | h
      · subst h
        rw [List.append_nil]
        exact takeWhile_all _ hall
      · subst h
        exact takeWhile_append_stop _ '\n' [] hall (by simp)
  unfold sscanfWordMeaning
  simp only [h1, h2, h3, h4, hw1, if_false]

/-! ## The loader: one line at a time -/

theorem contText_newline (k : List Char) (hk : k.length + 2 < 2 ^ 64) :
    contText ('+' :: k ++ ['\n']) = k := by
  unfold contText strncatCount
  have hlen : ('+' :: k ++ ['\n']).length = k.length + 2 := by simp
  rw [hlen]
  have hn : (k.length + 2 + 2 ^ 64 - 2) % 2 ^ 64 = k.length := by
    rw [show k.length + 2 + 2 ^ 64 - 2 = k.length + 2 ^ 64 by omega, Nat.add_mod_right]
    exact Nat.mod_eq_of_lt (by omega)
  rw [hn]
  simp

theorem loadLine_continuation (st : Loader) (line : List Char) (hplus : line.head? = some '+')
    (hlen : (st.meaning ++ contText line).length < LOAD_MEANING_SIZE) :
    loadLine st line = .next { st with meaning := st.meaning ++ contText line } := by
  unfold loadLine
  rw [if_pos hplus, if_pos hlen]

theorem lowercase_head_ne_plus (w rest : List Char) (hw : Lowercase w) (hw1 : w ≠ []) :
    (w ++ rest).head? ≠ some '+' := by
  cases w with
  | nil => exact absurd rfl hw1
  | cons a w =>
    have ha : 97 ≤ a.toNat ∧ a.toNat ≤ 122 := hw a (List.mem_cons_self _ _)
    intro h
    simp only [List.cons_append, List.head?_cons, Option.some.injEq] at h
    rw [h] at ha
    exact absurd ha (by decide)

/-- An entry line `word meaning` met while the loader holds a pending entry
with an empty accumulator after the commit: the pending entry is inserted and
the new word and meaning text are taken. -/
theorem scanLine_entryLine (st : Loader) (w m nl : List Char) (hw : Lowercase w)
    (hw1 : w ≠ []) (hwlen : w.length < WORD_SIZE) (hnl : '\n' ∉ m)
    (hhead : ∀ c, m.head? = some c → isspace c = false) (hend : nl = [] ∨ nl = ['\n'])
    (hmlen : m.length < LOAD_MEANING_SIZE) :
    scanLine st (w ++ ' ' :: m ++ nl) =
      .next { st with word := w, meaning := if m = [] then st.meaning else m,
                      isFirstLine := 0 } := by
  unfold scanLine
  rw [sscanfWordMeaning_entryLine w m nl hw hw1 hnl hhead hend]
  by_cases hm : m = []
  · simp [hm, hwlen]
  · simp [hm, hwlen, hmlen]

theorem runLines_append (st : Loader) (l1 l2 : List (List Char)) :
    runLines st (l1 ++ l2) =
      match runLines st l1 with
      | .next st' => runLines st' l2
      | .stop f t => .stop f t := by
  induction l1 generalizing st with
  | nil => rfl
  | cons l l1 ih =>
    simp only [List.cons_append, runLines]
    cases loadLine st l with
    | next st' => exact ih st'
    | stop f t => rfl

/-- Continuation lines that end in a newline add their contents to the
accumulator, in order. -/
theorem runLines_continuations (st : Loader) (ks : List (List Char))
    (hlen : (st.meaning ++ ks.flatten).length < LOAD_MEANING_SIZE) :
    runLines st (ks.map (fun k => '+' :: k ++ ['\n'])) =
      .next { st with meaning := st.meaning ++ ks.flatten } := by
  induction ks generalizing st with
  | nil => simp [runLines]
  | cons k ks ih =>
    simp only [List.flatten_cons, List.length_append, LOAD_MEANING_SIZE] at hlen
    have hk : contText ('+' :: k ++ ['\n']) = k := contText_newline k (by omega)
    simp only [List.map_cons, runLines]
    rw [loadLine_continuation st _ (by simp)
      (by rw [hk]; simp only [List.length_append, LOAD_MEANING_SIZE]; omega), hk]
    show runLines { st with meaning := st.meaning ++ k } _ = _
    rw [ih { st with meaning := st.meaning ++ k }
      (by simp only [List.length_append, LOAD_MEANING_SIZE]; omega)]
    simp

theorem commitPending_first (st : Loader) (h : st.isFirstLine ≠ 0) :
    commitPending st = .next st := by
  unfold commitPending
  rw [if_pos h]

theorem commitPending_pending (st : Loader) (h : st.isFirstLine = 0) (hw : Lowercase st.word)
    (hm : st.meaning.length < MEANING_SIZE) :
    commitPending st =
      .next { st with trie := (insert st.trie st.word st.meaning).trie, meaning := [] } := by
  unfold commitPending
  rw [if_neg (by simp [h]), insert_done st.trie st.word st.meaning hw hm]
  rfl

theorem loadLine_entryLine (st st' : Loader) (w m nl : List Char) (hw : Lowercase w)
    (hw1 : w ≠ []) (hwlen : w.length < WORD_SIZE) (hnl : '\n' ∉ m)
    (hhead : ∀ c, m.head? = some c → isspace c = false) (hend : nl = [] ∨ nl = ['\n'])
    (hmlen : m.length < LOAD_MEANING_SIZE) (hcommit : commitPending st = .next st') :
    loadLine st (w ++ ' ' :: m ++ nl) =
      .next { st' with word := w, meaning := if m = [] then st'.meaning else m,
                       isFirstLine := 0 } := by
  unfold loadLine
  have hh : ¬ (w ++ ' ' :: m ++ nl).head? = some '+' := by
    rw [List.append_assoc]
    exact lowercase_head_ne_plus w _ hw hw1
  rw [if_neg hh, hcommit]
  exact scanLine_entryLine st' w m nl hw hw1 hwlen hnl hhead hend hmlen

theorem length_le_flatten_of_mem (ks : List (List Char)) (k : List Char) (hk : k ∈ ks) :
    k.length ≤ ks.flatten.length := by
  induction ks with
  | nil => cases hk
  | cons a ks ih =>
    simp only [List.flatten_cons, List.length_append]
    rcases List.mem_cons.1 hk with h | h
    · rw [h]; omega
    · have := ih h; omega

/-- The lines of a well-formed entry, met by the loader after its commit left
state `st'` with an empty accumulator: the loader then holds the entry's
word and its whole meaning. -/
theorem runLines_entry (st st' : Loader) (e : Entry) (hwf : e.WellFormed)
    (hcommit : commitPending st = .next st') (hempty : st'.meaning = []) :
    runLines st e.lines =
      .next { trie := st'.trie, isFirstLine := 0, word := e.word, meaning := e.fullMeaning } := by
  obtain ⟨hw, hw1, hwlen, hnl, hhead, _, hfull, _⟩ := hwf
  have hmlen : e.meaning.length < LOAD_MEANING_SIZE := by
    unfold Entry.fullMeaning at hfull
    simp only [List.length_append] at hfull
    omega
  have hmeaning : (if e.meaning = [] then st'.meaning else e.meaning) = e.meaning := by
    by_cases h : e.meaning = []
    · rw [if_pos h, hempty, h]
    · rw [if_neg h]
  unfold Entry.lines
  simp only [runLines]
  rw [loadLine_entryLine st st' e.word e.meaning ['\n'] hw hw1 hwlen hnl hhead (Or.inr rfl)
    hmlen hcommit, hmeaning]
  show runLines { st' with word := e.word, meaning := e.meaning, isFirstLine := 0 } _ = _
  rw [runLines_continuations { st' with word := e.word, meaning := e.meaning, isFirstLine := 0 }
    e.continuations hfull]
  rfl

theorem andThen_done_right (o : Outcome) : o.andThen Outcome.done = o := by
  cases o <;> rfl

/-- The loop and the final `insert` on the lines of well-formed entries, from
a state that holds a pending entry: the pending entry and then every entry of
the file are inserted, in order, each with its whole meaning. -/
theorem flush_entries (es : List Entry) (hwf : ∀ e ∈ es, e.WellFormed) (st : Loader)
    (h0 : st.isFirstLine = 0) (hw : Lowercase st.word)
    (hm : st.meaning.length < LOAD_MEANING_SIZE) :
    (match runLines st (es.flatMap Entry.lines) with
      | .next st' => insert st'.trie st'.word st'.meaning
      | .stop f t => .fault f t) =
      insertAll st.trie ((st.word, st.meaning) :: es.map (fun e => (e.word, e.fullMeaning))) := by
  induction es generalizing st with
  | nil =>
    simp only [List.flatMap_nil, runLines, List.map_nil, insertAll]
    exact (andThen_done_right _).symm
  | cons e es ih =>
    have hm6 : st.meaning.length < MEANING_SIZE := by
      unfold LOAD_MEANING_SIZE at hm; unfold MEANING_SIZE; omega
    have he := hwf e (List.mem_cons_self _ _)
    rw [List.flatMap_cons, runLines_append,
      runLines_entry st _ e he (commitPending_pending st h0 hw hm6) rfl]
    simp only
    rw [ih (fun e' he' => hwf e' (List.mem_cons_of_mem _ he')) _ rfl he.1 he.2.2.2.2.2.2.1]
    simp only [List.map_cons]
    conv_rhs => rw [insertAll, insert_done st.trie st.word st.meaning hw hm6, andThen_done]

/-- Loading the lines of one or more well-formed entries is inserting every
entry, in order, with its whole meaning. -/
theorem loadLines_entries (t : Trie) (e : Entry) (es : List Entry)
    (hwf : ∀ e' ∈ e :: es, e'.WellFormed) :
    loadLines t ((e :: es).flatMap Entry.lines) =
      insertAll t ((e :: es).map (fun e => (e.word, e.fullMeaning))) := by
  have he := hwf e (List.mem_cons_self _ _)
  unfold loadLines
  rw [List.flatMap_cons, runLines_append,
    runLines_entry (Loader.start t) (Loader.start t) e he
      (commitPending_first _ (by simp [Loader.start])) rfl]
  simp only
  rw [flush_entries es (fun e' he' => hwf e' (List.mem_cons_of_mem _ he')) _ rfl he.1
    he.2.2.2.2.2.2.1]
  simp [Loader.start]

theorem lastMeaning_of_mem_nodup (ops : List (List Char × List Char))
    (hnd : (ops.map Prod.fst).Nodup) (x m : List Char) (h : (x, m) ∈ ops) :
    lastMeaning ops x = some m := by
  induction ops with
  | nil => cases h
  | cons e ops ih =>
    obtain ⟨w, m0⟩ := e
    simp only [List.map_cons, List.nodup_cons] at hnd
    obtain ⟨hnot, hnd'⟩ := hnd
    simp only [lastMeaning]
    rcases List.mem_cons.1 h with heq | hmem
    · injection heq with h1 h2
      have hnone : lastMeaning ops x = none := by
        cases hl : lastMeaning ops x with
        | none => rfl
        | some m' =>
          exact absurd ((lastMeaning_isSome ops x).1 ⟨m', hl⟩) (by rw [h1]; exact hnot)
      rw [hnone]
      simp [h1, h2]
    · rw [ih hnd' hmem]

theorem newline_not_lower {c : Char} (h : 'a' ≤ c ∧ c ≤ 'z') : c ≠ '\n' := by
  have h1 : 97 ≤ c.toNat ∧ c.toNat ≤ 122 := h
  intro hc
  rw [hc] at h1
  exact absurd h1 (by decide)

/-- The dictionary file of well-formed entries is read back as the lines of
the entries. -/
theorem fgetsLines_dictFile (es : List Entry) (hwf : ∀ e ∈ es, e.WellFormed) :
    fgetsLines (dictFile es) [] = es.flatMap Entry.lines := by
  unfold dictFile
  apply fgetsLines_flatten
  intro l hl
  obtain ⟨e, he, hle⟩ := List.mem_flatMap.1 hl
  obtain ⟨hw, _, _, hnl, _, hks, hfull, hline⟩ := hwf e he
  unfold Entry.lines at hle
  rcases List.mem_cons.1 hle with h | h
  · refine ⟨e.word ++ ' ' :: e.meaning, h, ?_, ?_⟩
    · intro hmem
      rcases List.mem_append.1 hmem with h1 | h1
      · exact newline_not_lower (hw _ h1) rfl
      · rcases List.mem_cons.1 h1 with h2 | h2
        · exact absurd h2 (by decide)
        · exact hnl h2
    · simp only [List.length_append, List.length_cons]
      omega
  · obtain ⟨k, hk, hlk⟩ := List.mem_map.1 h
    refine ⟨'+' :: k, by rw [← hlk], ?_, ?_⟩
    · intro hmem
      rcases List.mem_cons.1 hmem with h2 | h2
      · exact absurd h2 (by decide)
      · exact hks k hk h2
    · have h1 := length_le_flatten_of_mem _ k hk
      unfold Entry.fullMeaning at hfull
      simp only [List.length_append, LOAD_MEANING_SIZE] at hfull
      simp only [List.length_cons, LINE_SIZE]
      omega

/-! ## C7: loading a dictionary file with continuation lines -/

/-- C7: for every dictionary file made of well-formed entries (an entry line
`word meaning` ended by a newline, then its continuation lines `+text`, each
ended by a newline; words of one or more lowercase letters, pairwise distinct;
lengths within `word[200]`, `meaning[400]`, `line[600]`), loading the file into
the empty trie returns, and every entry's word then looks up to the meaning
text of its entry line followed by the contents of its continuation lines in
file order, with nothing in between. -/
theorem load_multiline (es : List Entry) (hwf : ∀ e ∈ es, e.WellFormed)
    (hnd : (es.map Entry.word).Nodup) :
    ∃ t, loadDictFile empty (some (dictFile es)) = .done t ∧
      ∀ e ∈ es, searchMeaning t e.word = some e.fullMeaning ∧
        (e.fullMeaning ≠ [] → lookup t e.word = some (some e.fullMeaning)) := by
  cases es with
  | nil => exact ⟨_, rfl, fun e he => by cases he⟩
  | cons e0 es =>
    have hload : loadDictFile empty (some (dictFile (e0 :: es))) =
        insertAll empty ((e0 :: es).map (fun e => (e.word, e.fullMeaning))) := by
      show loadLines empty (fgetsLines (dictFile (e0 :: es)) []) = _
      rw [fgetsLines_dictFile _ hwf, loadLines_entries empty e0 es hwf]
    have hvalid : ValidOps ((e0 :: es).map (fun e => (e.word, e.fullMeaning))) := by
      intro op hop
      obtain ⟨e, he, hop'⟩ := List.mem_map.1 hop
      obtain ⟨hw, _, _, _, _, _, hfull, _⟩ := hwf e he
      rw [← hop']
      refine ⟨hw, ?_⟩
      unfold LOAD_MEANING_SIZE at hfull
      unfold MEANING_SIZE
      simp only
      omega
    obtain ⟨hdone, hst⟩ := insertAll_spec empty _ hvalid
    refine ⟨_, hload.trans hdone, fun e he => ?_⟩
    have hnd' : (((e0 :: es).map (fun e => (e.word, e.fullMeaning))).map Prod.fst).Nodup := by
      rw [List.map_map]
      exact hnd
    have hlast := lastMeaning_of_mem_nodup _ hnd' e.word e.fullMeaning
      (List.mem_map.2 ⟨e, he, rfl⟩)
    have hs : searchMeaning
        (insertAll empty ((e0 :: es).map (fun e => (e.word, e.fullMeaning)))).trie e.word
        = some e.fullMeaning := by
      rw [searchMeaning_eq_stored _ _ (hwf e he).1, hst e.word, hlast]
      rfl
    refine ⟨hs, fun hne => ?_⟩
    unfold lookup
    rw [hs]
    simp [hne]

theorem load_multiline_witness :
    dictFile [⟨"cat".toList, "animal that meows".toList, ["  and purrs".toList]⟩,
        ⟨"dog".toList, "animal that barks".toList, []⟩]
      = "cat animal that meows\n+  and purrs\ndog animal that barks\n".toList ∧
    ∃ t, loadDictFile empty (some (dictFile
        [⟨"cat".toList, "animal that meows".toList, ["  and purrs".toList]⟩,
         ⟨"dog".toList, "animal that barks".toList, []⟩])) = .done t ∧
      ∀ e ∈ [(⟨"cat".toList, "animal that meows".toList, ["  and purrs".toList]⟩ : Entry),
         ⟨"dog".toList, "animal that barks".toList, []⟩],
        searchMeaning t e.word = some e.fullMeaning ∧
        (e.fullMeaning ≠ [] → lookup t e.word = some (some e.fullMeaning)) :=
  ⟨by decide, load_multiline _
    (by
      intro e he
      simp only [List.mem_cons, List.mem_singleton, List.not_mem_nil, or_false] at he
      rcases he with h | h <;> subst h <;>
        exact ⟨by decide, by decide, by decide, by decide, by decide, by decide, by decide,
          by decide⟩)
    (by decide)⟩

/-! ## C8: a continuation line without a final newline -/

/-- C8 (the code at the file `cat x`, newline, `+abc` with no final newline):
`fgets` returns the last line as `+abc`, `strncat` is given the count
`strlen(line) - 2 = 2` and appends `ab`, so `cat` gets the meaning `xab`: the
`c` is dropped although it is no newline.  With the final newline present
the same line appends `abc`. -/
theorem continuation_without_newline_drops_char :
    fgetsLines ("cat x".toList ++ '\n' :: "+abc".toList) []
        = ["cat x".toList ++ ['\n'], "+abc".toList] ∧
      contText "+abc".toList = "ab".toList ∧
      loadDictFile empty (some ("cat x".toList ++ '\n' :: "+abc".toList))
        = .done (loadDictFile empty (some ("cat x".toList ++ '\n' :: "+abc".toList))).trie ∧
      searchMeaning
          (loadDictFile empty (some ("cat x".toList ++ '\n' :: "+abc".toList))).trie
          "cat".toList = some "xab".toList ∧
      contText ("+abc".toList ++ ['\n']) = "abc".toList ∧
      searchMeaning
          (loadDictFile empty (some ("cat x".toList ++ '\n' :: "+abc".toList ++ ['\n']))).trie
          "cat".toList = some "xabc".toList :=
  ⟨by decide, by decide, rfl, by decide, by decide, by decide⟩

/-! ## C9: the entry pending at end of input -/

/-- Lines that start with `+` add what `strncat` takes from them to the
accumulator, in order. -/
theorem runLines_plus (st : Loader) (conts : List (List Char))
    (hplus : ∀ l ∈ conts, l.head? = some '+')
    (hlen : (st.meaning ++ conts.flatMap contText).length < LOAD_MEANING_SIZE) :
    runLines st conts = .next { st with meaning := st.meaning ++ conts.flatMap contText } := by
  induction conts generalizing st with
  | nil => simp [runLines]
  | cons l conts ih =>
    simp only [List.flatMap_cons, List.length_append, LOAD_MEANING_SIZE] at hlen
    simp only [runLines]
    rw [loadLine_continuation st l (hplus l (List.mem_cons_self _ _))
      (by simp only [List.length_append, LOAD_MEANING_SIZE]; omega)]
    show runLines { st with meaning := st.meaning ++ contText l } _ = _
    rw [ih { st with meaning := st.meaning ++ contText l }
      (fun l' hl' => hplus l' (List.mem_cons_of_mem _ hl'))
      (by simp only [List.length_append, LOAD_MEANING_SIZE]; omega)]
    simp

/-- The state after the last entry line, when the loader got that far. -/
theorem runLines_to_entryLine (st0 st : Loader) (pre : List (List Char)) (w m nl : List Char)
    (hw : Lowercase w) (hw1 : w ≠ []) (hwlen : w.length < WORD_SIZE) (hm1 : m ≠ [])
    (hnl : '\n' ∉ m) (hhead : ∀ c, m.head? = some c → isspace c = false)
    (hend : nl = [] ∨ nl = ['\n']) (hmlen : m.length < LOAD_MEANING_SIZE)
    (hrun : runLines st0 (pre ++ [w ++ ' ' :: m ++ nl]) = .next st) :
    st.word = w ∧ st.meaning = m := by
  rw [runLines_append] at hrun
  cases h1 : runLines st0 pre with
  | stop f t => rw [h1] at hrun; cases hrun
  | next st1 =>
    rw [h1] at hrun
    simp only [runLines] at hrun
    cases h2 : commitPending st1 with
    | stop f t =>
      have : loadLine st1 (w ++ ' ' :: m ++ nl) = .stop f t := by
        unfold loadLine
        have hh : ¬ (w ++ ' ' :: m ++ nl).head? = some '+' := by
          rw [List.append_assoc]
          exact lowercase_head_ne_plus w _ hw hw1
        rw [if_neg hh, h2]
      rw [this] at hrun
      cases hrun
    | next st2 =>
      rw [loadLine_entryLine st1 st2 w m nl hw hw1 hwlen hnl hhead hend hmlen h2] at hrun
      simp only [Step.next.injEq] at hrun
      rw [← hrun]
      simp [hm1]

/-- C9: for every sequence of lines whose last new-entry line is `w meaning`
(`w` of one or more lowercase letters, a meaning text, with or without the
newline at its end), followed by any number of lines that start with `+`
(the last one with or without a newline), read without fault up to that entry
line and with the accumulated text within `meaning[400]`: the load returns
and `w` looks up to the accumulated meaning, the text of the entry line
followed by what each `+` line added.  The final entry is committed by the
`insert` after the loop. -/
theorem end_of_input_flush (t0 : Trie) (pre : List (List Char)) (st : Loader)
    (w m nl : List Char) (conts : List (List Char))
    (hw : Lowercase w) (hw1 : w ≠ []) (hwlen : w.length < WORD_SIZE) (hm1 : m ≠ [])
    (hnl : '\n' ∉ m) (hhead : ∀ c, m.head? = some c → isspace c = false)
    (hend : nl = [] ∨ nl = ['\n'])
    (hplus : ∀ l ∈ conts, l.head? = some '+')
    (hlen : (m ++ conts.flatMap contText).length < LOAD_MEANING_SIZE)
    (hrun : runLines (Loader.start t0) (pre ++ [w ++ ' ' :: m ++ nl]) = .next st) :
    ∃ t, loadLines t0 (pre ++ [w ++ ' ' :: m ++ nl] ++ conts) = .done t ∧
      searchMeaning t w = some (m ++ conts.flatMap contText) ∧
      lookup t w = some (some (m ++ conts.flatMap contText)) := by
  have hmlen : m.length < LOAD_MEANING_SIZE := by
    simp only [List.length_append] at hlen
    omega
  obtain ⟨hsw, hsm⟩ := runLines_to_entryLine _ st pre w m nl hw hw1 hwlen hm1 hnl hhead hend
    hmlen hrun
  have hacc : (m ++ conts.flatMap contText).length < MEANING_SIZE := by
    unfold LOAD_MEANING_SIZE at hlen
    unfold MEANING_SIZE
    omega
  have hload : loadLines t0 (pre ++ [w ++ ' ' :: m ++ nl] ++ conts) =
      insert st.trie w (m ++ conts.flatMap contText) := by
    unfold loadLines
    rw [runLines_append, hrun]
    simp only
    rw [runLines_plus st conts hplus (by rw [hsm]; exact hlen)]
    simp only [hsw, hsm]
  have hs : searchMeaning (insert st.trie w (m ++ conts.flatMap contText)).trie w =
      some (m ++ conts.flatMap contText) := by
    rw [searchMeaning_eq_stored _ w hw, stored_insert st.trie w _ w hw hacc]
    simp
  refine ⟨_, hload.trans (insert_done st.trie w _ hw hacc), hs, ?_⟩
  unfold lookup
  rw [hs]
  simp [hm1]

theorem end_of_input_flush_witness :
    ∃ t, loadLines empty (["cat meows".toList ++ ['\n']] ++ ["dog barks".toList ++ ['\n']]
        ++ ["+ and bites".toList ++ ['\n'], "+ hard".toList]) = .done t ∧
      searchMeaning t "dog".toList
        = some ("barks".toList ++ ["+ and bites".toList ++ ['\n'], "+ hard".toList].flatMap contText) ∧
      lookup t "dog".toList
        = some (some ("barks".toList ++
            ["+ and bites".toList ++ ['\n'], "+ hard".toList].flatMap contText)) :=
  end_of_input_flush empty ["cat meows".toList ++ ['\n']]
    (match runLines (Loader.start empty)
        (["cat meows".toList ++ ['\n']] ++ ["dog".toList ++ ' ' :: "barks".toList ++ ['\n']]) with
      | .next st => st
      | .stop _ _ => Loader.start empty)
    "dog".toList "barks".toList ['\n'] ["+ and bites".toList ++ ['\n'], "+ hard".toList]
    (by decide) (by decide) (by decide) (by decide) (by decide) (by decide) (by decide)
    (by decide) (by decide) rfl

/-! ## C11: `searchMeaning` on a word with a character outside `a-z` -/

theorem searchMeaning_cons (k : Fin 26 → Trie) (mn : List Char) (l : Int) (c : Char)
    (w : List Char) {i : Fin 26} (hi : slot (charIndex c) = some i) :
    searchMeaning (.node k mn l) (c :: w) = searchMeaning (k i) w := by
  simp [searchMeaning, hi]

theorem searchMeaning_cons_none (k : Fin 26 → Trie) (mn : List Char) (l : Int) (c : Char)
    (w : List Char) (hi : slot (charIndex c) = none) :
    searchMeaning (.node k mn l) (c :: w) = none := by
  simp [searchMeaning, hi]

/-- C11 (as stated, at the empty trie with `A`, and at the trie holding `cat`
with `cat1`): `searchMeaning` makes no range check; it reaches the character
outside `a-z` with a node in hand and indexes `children[]` out of bounds, so
the result is not "not found". -/
theorem lookup_out_of_alphabet_indexes_out_of_bounds :
    ¬ Lowercase "A".toList ∧ ¬ Lowercase "cat1".toList ∧
      searchMeaning empty "A".toList = none ∧
      lookup empty "A".toList ≠ some none ∧
      searchMeaning (insert empty "cat".toList "animal".toList).trie "cat1".toList = none ∧
      lookup (insert empty "cat".toList "animal".toList).trie "cat1".toList ≠ some none :=
  ⟨by decide, by decide, by decide, by decide, by decide, by decide⟩

/-- C11 (amended): for every trie `t` and every string `s` with a character
outside `a-z`, `searchMeaning` checks no index.  When the walk along the
letters before the first such character leaves the trie (or the root is
absent) it returns the empty string, "not found", before it gets to that
character; when that walk ends on a node, the index computed from the
character is outside `0..25` and is used to index `children[]`. -/
theorem lookup_out_of_alphabet (t : Trie) (s : List Char) (hs : ¬ Lowercase s) :
    (walk t (s.takeWhile (fun c => decide ('a' ≤ c ∧ c ≤ 'z'))) = .null →
        searchMeaning t s = some [] ∧ lookup t s = some none) ∧
    (walk t (s.takeWhile (fun c => decide ('a' ≤ c ∧ c ≤ 'z'))) ≠ .null →
        searchMeaning t s = none ∧ lookup t s = none) := by
  induction s generalizing t with
  | nil => exact absurd lowercase_nil hs
  | cons c s ih =>
    cases t with
    | null =>
      refine ⟨fun _ => ⟨rfl, rfl⟩, fun h => ?_⟩
      rw [walk_null] at h
      exact absurd rfl h
    | node k mn l =>
      by_cases hc : 'a' ≤ c ∧ c ≤ 'z'
      · obtain ⟨i, hi⟩ := slot_of_lower hc
        have hs' : ¬ Lowercase s := fun h => hs (lowercase_cons.2 ⟨hc, h⟩)
        have htw : (c :: s).takeWhile (fun c => decide ('a' ≤ c ∧ c ≤ 'z')) =
            c :: s.takeWhile (fun c => decide ('a' ≤ c ∧ c ≤ 'z')) := by
          simp [List.takeWhile_cons, hc]
        have hl : lookup (.node k mn l) (c :: s) = lookup (k i) s := by
          unfold lookup
          rw [searchMeaning_cons k mn l c s hi]
        rw [htw, walk_cons _ c _ hi, kids_node, searchMeaning_cons k mn l c s hi, hl]
        exact ih (k i) hs'
      · have hn := slot_eq_none_of_not_lower hc
        have htw : (c :: s).takeWhile (fun c => decide ('a' ≤ c ∧ c ≤ 'z')) = [] := by
          simp [List.takeWhile_cons, hc]
        have hsm := searchMeaning_cons_none k mn l c s hn
        rw [htw]
        refine ⟨fun h => ?_, fun _ => ⟨hsm, ?_⟩⟩
        · exact Trie.noConfusion h
        · unfold lookup
          rw [hsm]
          rfl

theorem lookup_out_of_alphabet_witness :
    (walk empty ("x1".toList.takeWhile (fun c => decide ('a' ≤ c ∧ c ≤ 'z'))) = .null →
        searchMeaning empty "x1".toList = some [] ∧ lookup empty "x1".toList = some none) ∧
    (walk empty ("x1".toList.takeWhile (fun c => decide ('a' ≤ c ∧ c ≤ 'z'))) ≠ .null →
        searchMeaning empty "x1".toList = none ∧ lookup empty "x1".toList = none) :=
  lookup_out_of_alphabet empty "x1".toList (by decide)

/-! ## C12 – C13: terminal nodes and what `searchMeaning` returns -/

theorem isTerminalAt_iff_stored (t : Trie) (w : List Char) :
    IsTerminalAt t w ↔ ∃ m, stored t w = some m := by
  unfold IsTerminalAt stored
  cases walk t w with
  | null => simp [terminal]
  | node k mn l =>
    by_cases hl : l ≠ 0
    · simp only [terminal, if_pos hl]
      exact ⟨fun _ => ⟨mn, rfl⟩, fun _ => ⟨k, mn, l, rfl, hl⟩⟩
    · simp only [terminal, if_neg hl]
      constructor
      · rintro ⟨k', mn', l', h, hl'⟩
        injection h with _ _ h3
        exact absurd (h3 ▸ hl') hl
      · rintro ⟨m, h⟩
        cases h

theorem not_isTerminalAt_iff (t : Trie) (w : List Char) :
    ¬ IsTerminalAt t w ↔ stored t w = none := by
  rw [isTerminalAt_iff_stored]
  cases stored t w <;> simp

theorem insertAll_cons_done (t : Trie) (w m : List Char) (ops : List (List Char × List Char))
    (hw : Lowercase w) (hm : m.length < MEANING_SIZE) :
    insertAll t ((w, m) :: ops) = insertAll (insert t w m).trie ops := by
  show (insert t w m).andThen _ = _
  rw [insert_done t w m hw hm, andThen_done, trie_done]

/-- The nodes of a trie after a sequence of valid `insert` calls: those it
had and one for every prefix of every inserted word. -/
theorem walk_insertAll (t : Trie) (ops : List (List Char × List Char)) (hops : ValidOps ops)
    (v : List Char) :
    walk (insertAll t ops).trie v = .null ↔
      (walk t v = .null ∧ ∀ w ∈ ops.map Prod.fst, ¬ v <+: w) := by
  induction ops generalizing t with
  | nil => simp [insertAll, Outcome.trie]
  | cons e ops ih =>
    obtain ⟨w, m⟩ := e
    obtain ⟨⟨hw, hm⟩, hrest⟩ := validOps_cons.1 hops
    rw [insertAll_cons_done t w m ops hw hm, ih _ hrest, walk_insert t w m v hw hm]
    simp only [List.map_cons, List.mem_cons, forall_eq_or_imp]
    tauto

/-- C12: for every trie built from the empty trie by `insert` calls with words
of lowercase letters (meanings within the node's buffer) and every `w`, the
node reached from the root by following `w` exists and is terminal if and only
if `w` was the word of one of those calls; and every `insert`, on any trie,
keeps it so: afterwards the terminal nodes are those of before and the node of
the inserted word. -/
theorem terminal_iff_inserted (ops : List (List Char × List Char)) (hops : ValidOps ops) :
    ∃ t, insertAll empty ops = .done t ∧
      (∀ w, IsTerminalAt t w ↔ w ∈ ops.map Prod.fst) ∧
      (∀ w m, Lowercase w → m.length < MEANING_SIZE →
        ∃ t', insert t w m = .done t' ∧ insertAll empty (ops ++ [(w, m)]) = .done t' ∧
          ∀ v, IsTerminalAt t' v ↔ (IsTerminalAt t v ∨ v = w)) := by
  refine ⟨_, (insertAll_spec empty ops hops).1, fun w => ?_, fun w m hw hm => ?_⟩
  · rw [isTerminalAt_iff_stored, ← lastMeaning_isSome]
    constructor
    · rintro ⟨m, h⟩
      exact ⟨m, by rw [← stored_insertAll_empty ops hops w]; exact h⟩
    · rintro ⟨m, h⟩
      exact ⟨m, by rw [stored_insertAll_empty ops hops w]; exact h⟩
  · refine ⟨_, insert_done _ w m hw hm, ?_, fun v => ?_⟩
    · have happ : ∀ (t0 : Trie) (l : List (List Char × List Char)), ValidOps l →
          insertAll t0 (l ++ [(w, m)]) = insert (insertAll t0 l).trie w m := by
        intro t0 l
        induction l generalizing t0 with
        | nil =>
          intro _
          show (insert t0 w m).andThen _ = insert t0 w m
          rw [insert_done t0 w m hw hm]
          rfl
        | cons e l ih =>
          intro hl
          obtain ⟨w1, m1⟩ := e
          obtain ⟨⟨hw1, hm1⟩, hrest⟩ := validOps_cons.1 hl
          rw [List.cons_append, insertAll_cons_done t0 w1 m1 _ hw1 hm1,
            insertAll_cons_done t0 w1 m1 _ hw1 hm1, ih _ hrest]
      rw [happ empty ops hops]
      exact insert_done _ w m hw hm
    · rw [isTerminalAt_iff_stored, isTerminalAt_iff_stored, stored_insert _ w m v hw hm]
      by_cases hvw : v = w
      · simp [hvw]
      · simp [hvw]

theorem terminal_iff_inserted_witness :
    ∃ t, insertAll empty [("cat".toList, "a".toList), ("car".toList, "b".toList)] = .done t ∧
      (∀ w, IsTerminalAt t w ↔
        w ∈ [("cat".toList, "a".toList), ("car".toList, "b".toList)].map Prod.fst) ∧
      (∀ w m, Lowercase w → m.length < MEANING_SIZE →
        ∃ t', insert t w m = .done t' ∧
          insertAll empty ([("cat".toList, "a".toList), ("car".toList, "b".toList)]
            ++ [(w, m)]) = .done t' ∧
          ∀ v, IsTerminalAt t' v ↔ (IsTerminalAt t v ∨ v = w)) :=
  terminal_iff_inserted [("cat".toList, "a".toList), ("car".toList, "b".toList)] (by decide)

/-- C13 (as stated, at the trie holding `a` with the empty meaning): the root
is present, the letter has its child and the node reached is terminal, yet
`searchMeaning` returns the empty string, which is "not found". -/
theorem lookup_not_found_on_terminal_node :
    Lowercase "a".toList ∧
      (insert empty "a".toList []).trie ≠ .null ∧
      walk (insert empty "a".toList []).trie "a".toList ≠ .null ∧
      IsTerminalAt (insert empty "a".toList []).trie "a".toList ∧
      searchMeaning (insert empty "a".toList []).trie "a".toList = some [] ∧
      lookup (insert empty "a".toList []).trie "a".toList = some none :=
  ⟨by decide, fun h => Trie.noConfusion h, fun h => Trie.noConfusion h,
    ⟨_, _, _, rfl, by decide⟩, by decide, by decide⟩

/-- C13 (amended): for every trie `t`, absent root included, and every
lowercase word `w`, `lookup` is "not found" if and only if the root is absent,
or some letter of `w` has no child along the walk, or the node reached is not
terminal, or that node is terminal and the meaning it holds is the empty
string; in every other case `searchMeaning` returns the meaning held by the
terminal node reached by `w`.  In all cases the string returned is the stored
meaning when there is one and the empty string when there is none. -/
theorem lookup_characterisation (t : Trie) (w : List Char) (hw : Lowercase w) :
    (lookup t w = some none ↔
      (t = .null ∨ walk t w = .null ∨ ¬ IsTerminalAt t w ∨ stored t w = some [])) ∧
    (∀ m, stored t w = some m → searchMeaning t w = some m) ∧
    (∀ m, stored t w = some m → m ≠ [] → lookup t w = some (some m)) ∧
    (stored t w = none → searchMeaning t w = some []) := by
  have hs := searchMeaning_eq_stored t w hw
  have hnull : t = .null → ¬ IsTerminalAt t w := by
    intro h
    rw [h, not_isTerminalAt_iff, stored_null]
  have hwalk : walk t w = .null → ¬ IsTerminalAt t w := by
    intro h
    rw [not_isTerminalAt_iff]
    unfold stored
    rw [h]
    rfl
  refine ⟨?_, ?_, ?_, ?_⟩
  · unfold lookup
    rw [hs]
    constructor
    · intro h
      cases hst : stored t w with
      | none => exact Or.inr (Or.inr (Or.inl ((not_isTerminalAt_iff t w).2 hst)))
      | some m =>
        rw [hst] at h
        by_cases hm : m = []
        · rw [hm]; exact Or.inr (Or.inr (Or.inr rfl))
        · simp [hm] at h
    · intro h
      have h' : ¬ IsTerminalAt t w ∨ stored t w = some [] := by
        rcases h with h | h | h | h
        · exact Or.inl (hnull h)
        · exact Or.inl (hwalk h)
        · exact Or.inl h
        · exact Or.inr h
      rcases h' with h | h
      · rw [(not_isTerminalAt_iff t w).1 h]; rfl
      · rw [h]; rfl
  · intro m hm
    rw [hs, hm]; rfl
  · intro m hm hne
    unfold lookup
    rw [hs, hm]
    simp [hne]
  · intro h
    rw [hs, h]; rfl

theorem lookup_characterisation_witness :
    (lookup (insert empty "cat".toList "animal".toList).trie "ca".toList = some none ↔
      ((insert empty "cat".toList "animal".toList).trie = .null ∨
        walk (insert empty "cat".toList "animal".toList).trie "ca".toList = .null ∨
        ¬ IsTerminalAt (insert empty "cat".toList "animal".toList).trie "ca".toList ∨
        stored (insert empty "cat".toList "animal".toList).trie "ca".toList = some [])) ∧
    (∀ m, stored (insert empty "cat".toList "animal".toList).trie "ca".toList = some m →
      searchMeaning (insert empty "cat".toList "animal".toList).trie "ca".toList = some m) ∧
    (∀ m, stored (insert empty "cat".toList "animal".toList).trie "ca".toList = some m →
      m ≠ [] →
      lookup (insert empty "cat".toList "animal".toList).trie "ca".toList = some (some m)) ∧
    (stored (insert empty "cat".toList "animal".toList).trie "ca".toList = none →
      searchMeaning (insert empty "cat".toList "animal".toList).trie "ca".toList = some []) :=
  lookup_characterisation _ "ca".toList (by decide)

/-! ## C14 – C15: what the loader commits -/

/-- C14 (the code at the file made of the lines `+abc` and `cat`, each ended
by a newline): the line `cat` holds only the word, so `sscanf` leaves
`meaning` as it is; it is the first line not starting with `+`, so `meaning`
has not been cleared and still holds the `abc` of the line before.  The entry
`cat` is stored with the meaning `abc` instead of the empty one.  When the
same line is not the first entry line, `memset` has cleared the accumulator
and `cat` gets the empty meaning. -/
theorem first_entry_inherits_leading_continuation :
    fgetsLines ("+abc".toList ++ '\n' :: "cat".toList ++ ['\n']) []
        = ["+abc".toList ++ ['\n'], "cat".toList ++ ['\n']] ∧
      sscanfWordMeaning ("cat".toList ++ ['\n']) = (some "cat".toList, none) ∧
      loadDictFile empty (some ("+abc".toList ++ '\n' :: "cat".toList ++ ['\n']))
        = .done (loadDictFile empty
            (some ("+abc".toList ++ '\n' :: "cat".toList ++ ['\n']))).trie ∧
      searchMeaning (loadDictFile empty
          (some ("+abc".toList ++ '\n' :: "cat".toList ++ ['\n']))).trie "cat".toList
        = some "abc".toList ∧
      searchWithPrefix (loadDictFile empty
          (some ("dog x".toList ++ '\n' :: "+abc".toList ++ '\n' :: "cat".toList ++ ['\n']))).trie []
        = some [Line.entry "cat".toList [], Line.entry "dog".toList "xabc".toList] :=
  ⟨by decide, by decide, rfl, by decide, by decide⟩

/-- C15 (the code at the empty file, and at the file whose only line is
`+abc`): the `insert` after the loop runs although no entry was started, with
the initial `word`, the empty string.  The root becomes terminal and the empty
word is stored, with the empty meaning for the empty file and with `abc` for
the other.  When the file cannot be opened nothing is inserted. -/
theorem load_without_entry_inserts_empty_word :
    fgetsLines [] [] = [] ∧
      loadDictFile empty (some []) = .done (loadDictFile empty (some [])).trie ∧
      loadDictFile empty (some []) = insert empty [] [] ∧
      IsTerminalAt (loadDictFile empty (some [])).trie [] ∧
      ¬ IsTerminalAt empty [] ∧
      searchWithPrefix (loadDictFile empty (some [])).trie [] = some [Line.entry [] []] ∧
      searchWithPrefix empty [] = some [] ∧
      loadDictFile empty (some ("+abc".toList ++ ['\n'])) = insert empty [] "abc".toList ∧
      searchMeaning (loadDictFile empty (some ("+abc".toList ++ ['\n']))).trie []
        = some "abc".toList ∧
      searchWithPrefix (loadDictFile empty none).trie [] = some [] :=
  ⟨rfl, rfl, rfl, ⟨_, _, _, rfl, by decide⟩,
    by rw [not_isTerminalAt_iff]; rfl, by decide, by decide, rfl, by decide, by decide⟩

/-! ## C18 – C19: `insert` and the other words -/

/-- C18: for every trie `t`, every word `w` of lowercase letters, every
meaning `m` within the node's buffer and every lowercase word `v` other than
`w` (a proper prefix, a proper extension or any other word), `insert` returns
and looking `v` up afterwards gives what it gave before; the node of `v` is
terminal after exactly when it was before, with the same meaning. -/
theorem insert_frame (t : Trie) (w m v : List Char) (hw : Lowercase w)
    (hm : m.length < MEANING_SIZE) (hv : Lowercase v) (hvw : v ≠ w) :
    ∃ t', insert t w m = .done t' ∧
      searchMeaning t' v = searchMeaning t v ∧
      lookup t' v = lookup t v ∧
      (IsTerminalAt t' v ↔ IsTerminalAt t v) ∧
      stored t' v = stored t v := by
  have hst : stored (insert t w m).trie v = stored t v := by
    rw [stored_insert t w m v hw hm, if_neg hvw]
  have hs : searchMeaning (insert t w m).trie v = searchMeaning t v := by
    rw [searchMeaning_eq_stored _ v hv, searchMeaning_eq_stored t v hv, hst]
  refine ⟨_, insert_done t w m hw hm, hs, ?_, ?_, hst⟩
  · unfold lookup
    rw [hs]
  · rw [isTerminalAt_iff_stored, isTerminalAt_iff_stored, hst]

theorem insert_frame_witness :
    ∃ t', insert (insert empty "ca".toList "x".toList).trie "cat".toList "animal".toList
        = .done t' ∧
      searchMeaning t' "ca".toList
        = searchMeaning (insert empty "ca".toList "x".toList).trie "ca".toList ∧
      lookup t' "ca".toList = lookup (insert empty "ca".toList "x".toList).trie "ca".toList ∧
      (IsTerminalAt t' "ca".toList
        ↔ IsTerminalAt (insert empty "ca".toList "x".toList).trie "ca".toList) ∧
      stored t' "ca".toList = stored (insert empty "ca".toList "x".toList).trie "ca".toList :=
  insert_frame _ "cat".toList "animal".toList "ca".toList (by decide) (by decide) (by decide)
    (by decide)

theorem setChild_comm (k : Fin 26 → Trie) {i j : Fin 26} (a b : Trie) (h : i ≠ j) :
    setChild (setChild k i a) j b = setChild (setChild k j b) i a := by
  funext x
  have hji : j ≠ i := fun e => h e.symm
  by_cases hxi : x = i
  · rw [hxi]
    simp [setChild, h]
  · by_cases hxj : x = j
    · rw [hxj]
      simp [setChild, hji]
    · simp [setChild, hxi, hxj]

theorem insert_cons_trie (t : Trie) (c : Char) (w m : List Char) {i : Fin 26}
    (hi : slot (charIndex c) = some i) (hw : Lowercase w) (hm : m.length < MEANING_SIZE) :
    (insert t (c :: w) m).trie =
      .node (setChild t.kids i (insert (t.kids i) w m).trie) t.text t.flag := by
  rw [insert_cons t c w m hi, insert_done (t.kids i) w m hw hm, map_done, trie_done, trie_done]

theorem insert_nil_trie (t : Trie) (m : List Char) (hm : m.length < MEANING_SIZE) :
    (insert t [] m).trie = .node t.kids m 1 := by
  rw [insert_nil t m hm, trie_done]

theorem text_node (k : Fin 26 → Trie) (m : List Char) (l : Int) :
    (Trie.node k m l).text = m := rfl

theorem flag_node (k : Fin 26 → Trie) (m : List Char) (l : Int) :
    (Trie.node k m l).flag = l := rfl

/-- Two insertions of different words give the same trie in either order. -/
theorem insert_comm_trie (t : Trie) (w1 m1 w2 m2 : List Char) (h1 : Lowercase w1)
    (h2 : Lowercase w2) (hm1 : m1.length < MEANING_SIZE) (hm2 : m2.length < MEANING_SIZE)
    (hne : w1 ≠ w2) :
    (insert (insert t w1 m1).trie w2 m2).trie = (insert (insert t w2 m2).trie w1 m1).trie := by
  induction w1 generalizing t w2 with
  | nil =>
    cases w2 with
    | nil => exact absurd rfl hne
    | cons c2 w2 =>
      obtain ⟨hc2, hw2⟩ := lowercase_cons.1 h2
      obtain ⟨i2, hi2⟩ := slot_of_lower hc2
      rw [insert_nil_trie t m1 hm1, insert_cons_trie _ c2 w2 m2 hi2 hw2 hm2,
        insert_cons_trie t c2 w2 m2 hi2 hw2 hm2, insert_nil_trie _ m1 hm1]
      simp only [kids_node, text_node, flag_node]
  | cons c1 w1 ih =>
    obtain ⟨hc1, hw1⟩ := lowercase_cons.1 h1
    obtain ⟨i1, hi1⟩ := slot_of_lower hc1
    cases w2 with
    | nil =>
      rw [insert_cons_trie t c1 w1 m1 hi1 hw1 hm1, insert_nil_trie t m2 hm2,
        insert_nil_trie _ m2 hm2, insert_cons_trie _ c1 w1 m1 hi1 hw1 hm1]
      simp only [kids_node, text_node, flag_node]
    | cons c2 w2 =>
      obtain ⟨hc2, hw2⟩ := lowercase_cons.1 h2
      obtain ⟨i2, hi2⟩ := slot_of_lower hc2
      rw [insert_cons_trie t c1 w1 m1 hi1 hw1 hm1, insert_cons_trie _ c2 w2 m2 hi2 hw2 hm2,
        insert_cons_trie t c2 w2 m2 hi2 hw2 hm2, insert_cons_trie _ c1 w1 m1 hi1 hw1 hm1]
      simp only [kids_node, text_node, flag_node]
      by_cases hij : i1 = i2
      · have hc : c1 = c2 := by rw [← letter_of_slot hi1, ← letter_of_slot hi2, hij]
        have hw : w1 ≠ w2 := fun h => hne (by rw [hc, h])
        subst hij
        rw [setChild_same, setChild_same, setChild_setChild, setChild_setChild,
          ih (t.kids i1) w2 hw1 hw2 hw]
      · have hji : i2 ≠ i1 := fun h => hij h.symm
        rw [setChild_other _ _ hji, setChild_other _ _ hij, setChild_comm _ _ _ hij]

/-- C19: for every trie `t`, all distinct words `w1`, `w2` of lowercase letters
and all meanings `m1`, `m2` within the node's buffer, inserting `(w1, m1)` then
`(w2, m2)` and inserting `(w2, m2)` then `(w1, m1)` both return and give the
same trie; hence every `searchMeaning` and every `searchWithPrefix` gives the
same result on both. -/
theorem insert_comm (t : Trie) (w1 m1 w2 m2 : List Char) (h1 : Lowercase w1)
    (h2 : Lowercase w2) (hm1 : m1.length < MEANING_SIZE) (hm2 : m2.length < MEANING_SIZE)
    (hne : w1 ≠ w2) :
    ∃ t1 t2 t12 t21, insert t w1 m1 = .done t1 ∧ insert t1 w2 m2 = .done t12 ∧
      insert t w2 m2 = .done t2 ∧ insert t2 w1 m1 = .done t21 ∧
      t12 = t21 ∧
      (∀ v, searchMeaning t12 v = searchMeaning t21 v) ∧
      (∀ p, searchWithPrefix t12 p = searchWithPrefix t21 p) := by
  have h := insert_comm_trie t w1 m1 w2 m2 h1 h2 hm1 hm2 hne
  refine ⟨_, _, _, _, insert_done t w1 m1 h1 hm1, insert_done _ w2 m2 h2 hm2,
    insert_done t w2 m2 h2 hm2, insert_done _ w1 m1 h1 hm1, h, ?_, ?_⟩
  · intro v; rw [h]
  · intro p; rw [h]

theorem insert_comm_witness :
    ∃ t1 t2 t12 t21, insert empty "cat".toList "a".toList = .done t1 ∧
      insert t1 "car".toList "b".toList = .done t12 ∧
      insert empty "car".toList "b".toList = .done t2 ∧
      insert t2 "cat".toList "a".toList = .done t21 ∧
      t12 = t21 ∧
      (∀ v, searchMeaning t12 v = searchMeaning t21 v) ∧
      (∀ p, searchWithPrefix t12 p = searchWithPrefix t21 p) :=
  insert_comm empty "cat".toList "a".toList "car".toList "b".toList (by decide) (by decide)
    (by decide) (by decide) (by decide)

/-! ## C16: nodes created by `insert` -/

theorem sum_map_change (l : List (Fin 26)) (hl : l.Nodup) (f g : Fin 26 → Nat) (i : Fin 26)
    (hfg : ∀ j, j ≠ i → g j = f j) :
    (i ∈ l → (l.map g).sum + f i = (l.map f).sum + g i) ∧
      (i ∉ l → (l.map g).sum = (l.map f).sum) := by
  induction l with
  | nil => simp
  | cons a l ih =>
    obtain ⟨hal, hl'⟩ := List.nodup_cons.1 hl
    obtain ⟨ih1, ih2⟩ := ih hl'
    simp only [List.map_cons, List.sum_cons, List.mem_cons, not_or]
    constructor
    · rintro (h | h)
      · have hil : i ∉ l := h ▸ hal
        rw [ih2 hil, ← h]
        omega
      · have hai : a ≠ i := fun e => hal (e ▸ h)
        have := ih1 h
        rw [hfg a hai]
        omega
    · rintro ⟨h1, h2⟩
      rw [ih2 h2, hfg a (fun e => h1 e.symm)]

theorem nodeCount_node (k : Fin 26 → Trie) (mn : List Char) (l : Int) :
    nodeCount (.node k mn l) = 1 + ((List.finRange 26).map (fun i => nodeCount (k i))).sum := by
  simp only [nodeCount]

theorem nodeCount_setChild (k : Fin 26 → Trie) (i : Fin 26) (c : Trie) (mn mn' : List Char)
    (l l' : Int) :
    nodeCount (.node (setChild k i c) mn l) + nodeCount (k i) =
      nodeCount (.node k mn' l') + nodeCount c := by
  rw [nodeCount_node, nodeCount_node]
  have h := (sum_map_change (List.finRange 26) (List.nodup_finRange 26)
    (fun j => nodeCount (k j)) (fun j => nodeCount (setChild k i c j)) i
    (fun j hj => by simp only [setChild_other k c hj])).1 (List.mem_finRange i)
  simp only [setChild_same] at h
  omega

theorem nodeCount_fresh (mn : List Char) (l : Int) :
    nodeCount (.node Trie.null.kids mn l) = 1 := by
  rw [nodeCount_node]
  have : ((List.finRange 26).map (fun i => nodeCount (Trie.null.kids i))).sum = 0 := by decide
  rw [this]

/-- Inserting below an absent node creates the node and one node per letter. -/
theorem nodeCount_insert_null (w m : List Char) (hw : Lowercase w)
    (hm : m.length < MEANING_SIZE) : nodeCount (insert .null w m).trie = w.length + 1 := by
  induction w with
  | nil => rw [insert_nil_trie _ m hm, nodeCount_fresh]; rfl
  | cons c w ih =>
    obtain ⟨hc, hw'⟩ := lowercase_cons.1 hw
    obtain ⟨i, hi⟩ := slot_of_lower hc
    rw [insert_cons_trie _ c w m hi hw' hm]
    have h := nodeCount_setChild Trie.null.kids i (insert (Trie.null.kids i) w m).trie
      Trie.null.text Trie.null.text Trie.null.flag Trie.null.flag
    have h0 : nodeCount (Trie.null.kids i) = 0 := rfl
    have h1 : nodeCount (insert (Trie.null.kids i) w m).trie = w.length + 1 := ih hw'
    rw [nodeCount_fresh] at h
    simp only [List.length_cons]
    omega

theorem pathLen_cons_null (t : Trie) (c : Char) (w : List Char) {i : Fin 26}
    (hi : slot (charIndex c) = some i) (hk : t.kids i = .null) : pathLen t (c :: w) = 0 := by
  simp [pathLen, hi, hk]

theorem pathLen_cons_node (t : Trie) (c : Char) (w : List Char) {i : Fin 26}
    (hi : slot (charIndex c) = some i) {k : Fin 26 → Trie} {mn : List Char} {l : Int}
    (hk : t.kids i = .node k mn l) : pathLen t (c :: w) = 1 + pathLen (.node k mn l) w := by
  simp [pathLen, hi, hk]

/-- The nodes `insert` adds below a node that exists: one for every letter
beyond those it could follow. -/
theorem nodeCount_insert (k : Fin 26 → Trie) (mn : List Char) (l : Int) (w m : List Char)
    (hw : Lowercase w) (hm : m.length < MEANING_SIZE) :
    nodeCount (insert (.node k mn l) w m).trie + pathLen (.node k mn l) w =
      nodeCount (.node k mn l) + w.length := by
  induction w generalizing k mn l with
  | nil =>
    rw [insert_nil_trie _ m hm, kids_node, nodeCount_node, nodeCount_node]
    rfl
  | cons c w ih =>
    obtain ⟨hc, hw'⟩ := lowercase_cons.1 hw
    obtain ⟨i, hi⟩ := slot_of_lower hc
    rw [insert_cons_trie _ c w m hi hw' hm, kids_node]
    have h := nodeCount_setChild k i (insert (k i) w m).trie (Trie.node k mn l).text mn
      (Trie.node k mn l).flag l
    simp only [List.length_cons]
    cases hk : k i with
    | null =>
      rw [pathLen_cons_null _ c w hi (by rw [kids_node]; exact hk)]
      rw [hk] at h
      have h1 := nodeCount_insert_null w m hw' hm
      have h0 : nodeCount Trie.null = 0 := rfl
      omega
    | node k' mn' l' =>
      rw [pathLen_cons_node _ c w hi (by rw [kids_node]; exact hk)]
      rw [hk] at h
      have h1 := ih k' mn' l' hw'
      omega

theorem pathLen_le (t : Trie) (w : List Char) : pathLen t w ≤ w.length := by
  induction w generalizing t with
  | nil => simp [pathLen]
  | cons c w ih =>
    cases hc : slot (charIndex c) with
    | none => simp [pathLen, hc]
    | some i =>
      cases hk : t.kids i with
      | null => rw [pathLen_cons_null t c w hc hk]; omega
      | node k mn l =>
        rw [pathLen_cons_node t c w hc hk]
        have := ih (.node k mn l)
        simp only [List.length_cons]
        omega

/-- The prefixes of a lowercase `w` whose path exists below a node that exists
are those of length up to `pathLen`. -/
theorem walk_take_iff (k : Fin 26 → Trie) (mn : List Char) (l : Int) (w : List Char)
    (hw : Lowercase w) (j : Nat) (hj : j ≤ w.length) :
    walk (.node k mn l) (w.take j) ≠ .null ↔ j ≤ pathLen (.node k mn l) w := by
  induction w generalizing k mn l j with
  | nil =>
    simp only [List.length_nil, Nat.le_zero_eq] at hj
    rw [hj]
    simp [walk, pathLen]
  | cons c w ih =>
    obtain ⟨hc, hw'⟩ := lowercase_cons.1 hw
    obtain ⟨i, hi⟩ := slot_of_lower hc
    cases j with
    | zero => simp [walk]
    | succ j =>
      simp only [List.length_cons, Nat.add_le_add_iff_right] at hj
      rw [List.take_succ_cons, walk_cons _ c _ hi, kids_node]
      cases hk : k i with
      | null =>
        rw [pathLen_cons_null _ c w hi (by rw [kids_node]; exact hk), walk_null]
        simp
      | node k' mn' l' =>
        rw [pathLen_cons_node _ c w hi (by rw [kids_node]; exact hk), ih k' mn' l' hw' j hj]
        omega

/-- C16: for every trie `t` with a root, every word `w` of lowercase letters
and every meaning within the node's buffer, `insert` returns a trie with one
more node for every letter of `w` beyond the longest prefix `w.take k` of `w`
whose path exists in `t`: `nodeCount` grows by `|w| - k`, by nothing when the
whole path exists.  Every path of `t` is still there, every other word keeps
its terminal flag and meaning, and the node of `w` is the one node made
terminal. -/
theorem insert_creates_missing_nodes (t : Trie) (w m : List Char) (ht : t ≠ .null)
    (hw : Lowercase w) (hm : m.length < MEANING_SIZE) :
    ∃ t' k, insert t w m = .done t' ∧
      k ≤ w.length ∧ walk t (w.take k) ≠ .null ∧
      (∀ j, j ≤ w.length → walk t (w.take j) ≠ .null → j ≤ k) ∧
      nodeCount t' = nodeCount t + w.length - k ∧
      (walk t w ≠ .null → nodeCount t' = nodeCount t) ∧
      (∀ v, walk t v ≠ .null → walk t' v ≠ .null) ∧
      (∀ v, v ≠ w → stored t' v = stored t v) ∧
      (∀ v, IsTerminalAt t' v ↔ (IsTerminalAt t v ∨ v = w)) := by
  cases t with
  | null => exact absurd rfl ht
  | node kk mn l =>
    have hle := pathLen_le (.node kk mn l) w
    have hcount := nodeCount_insert kk mn l w m hw hm
    refine ⟨_, pathLen (.node kk mn l) w, insert_done _ w m hw hm, hle,
      (walk_take_iff kk mn l w hw _ hle).2 (Nat.le_refl _),
      fun j hj hwalk => (walk_take_iff kk mn l w hw j hj).1 hwalk, by omega, ?_, ?_, ?_, ?_⟩
    · intro hwalk
      have h := (walk_take_iff kk mn l w hw w.length (Nat.le_refl _)).1
        (by rw [List.take_length]; exact hwalk)
      omega
    · intro v hv h
      exact hv ((walk_insert _ w m v hw hm).1 h).1
    · intro v hv
      rw [stored_insert _ w m v hw hm, if_neg hv]
    · intro v
      rw [isTerminalAt_iff_stored, isTerminalAt_iff_stored, stored_insert _ w m v hw hm]
      by_cases hvw : v = w
      · simp [hvw]
      · simp [hvw]

theorem insert_creates_missing_nodes_witness :
    ∃ t' k, insert (insert empty "ca".toList "x".toList).trie "cats".toList "y".toList
        = .done t' ∧
      k ≤ "cats".toList.length ∧
      walk (insert empty "ca".toList "x".toList).trie ("cats".toList.take k) ≠ .null ∧
      (∀ j, j ≤ "cats".toList.length →
        walk (insert empty "ca".toList "x".toList).trie ("cats".toList.take j) ≠ .null →
        j ≤ k) ∧
      nodeCount t' = nodeCount (insert empty "ca".toList "x".toList).trie
        + "cats".toList.length - k ∧
      (walk (insert empty "ca".toList "x".toList).trie "cats".toList ≠ .null →
        nodeCount t' = nodeCount (insert empty "ca".toList "x".toList).trie) ∧
      (∀ v, walk (insert empty "ca".toList "x".toList).trie v ≠ .null → walk t' v ≠ .null) ∧
      (∀ v, v ≠ "cats".toList →
        stored t' v = stored (insert empty "ca".toList "x".toList).trie v) ∧
      (∀ v, IsTerminalAt t' v ↔
        (IsTerminalAt (insert empty "ca".toList "x".toList).trie v ∨ v = "cats".toList)) :=
  insert_creates_missing_nodes _ "cats".toList "y".toList (fun h => Trie.noConfusion h)
    (by decide) (by decide)

/-! ## C17: depth of the recursion of `printWordsWithPrefix` -/

theorem foldr_max_le_iff (l : List Nat) (n : Nat) :
    l.foldr max 0 ≤ n ↔ ∀ x ∈ l, x ≤ n := by
  induction l with
  | nil => simp
  | cons a l ih =>
    simp only [List.foldr_cons, List.mem_cons, forall_eq_or_imp, Nat.max_le, ih]

theorem printDepth_node (k : Fin 26 → Trie) (mn : List Char) (l : Int) :
    printDepth (.node k mn l) =
      1 + ((List.finRange 26).map (fun i => printDepth (k i))).foldr max 0 := by
  simp only [printDepth]

/-- The depth of the recursion on `t` is within `n` exactly when every path
that exists below `t` is shorter than `n`. -/
theorem printDepth_le_iff (t : Trie) (n : Nat) :
    printDepth t ≤ n ↔ ∀ v, walk t v ≠ .null → v.length < n := by
  induction t generalizing n with
  | null =>
    simp only [printDepth, Nat.zero_le, true_iff]
    intro v hv
    exact absurd (walk_null v) hv
  | node k mn l ih =>
    rw [printDepth_node]
    constructor
    · intro h v hv
      cases v with
      | nil => simp only [List.length_nil]; omega
      | cons c v =>
        cases hc : slot (charIndex c) with
        | none => exact absurd (walk_cons_none _ c v hc) hv
        | some i =>
          rw [walk_cons _ c v hc, kids_node] at hv
          have hM : ((List.finRange 26).map (fun i => printDepth (k i))).foldr max 0 ≤ n - 1 := by
            omega
          have hi := (foldr_max_le_iff _ _).1 hM (printDepth (k i))
            (List.mem_map.2 ⟨i, List.mem_finRange i, rfl⟩)
          have := (ih i (n - 1)).1 hi v hv
          simp only [List.length_cons]
          omega
    · intro h
      have h0 : 0 < n := h [] (fun e => Trie.noConfusion e)
      have hM : ((List.finRange 26).map (fun i => printDepth (k i))).foldr max 0 ≤ n - 1 := by
        rw [foldr_max_le_iff]
        intro x hx
        obtain ⟨i, _, hxi⟩ := List.mem_map.1 hx
        rw [← hxi, ih i (n - 1)]
        intro v hv
        have := h (letter i :: v) (by rw [walk_cons _ _ v (slot_letter i), kids_node]; exact hv)
        simp only [List.length_cons] at this
        omega
      omega

theorem walk_empty_cons (c : Char) (v : List Char) : walk empty (c :: v) = .null := by
  cases hc : slot (charIndex c) with
  | none => exact walk_cons_none _ c v hc
  | some i => rw [walk_cons _ c v hc]; exact walk_null v

theorem length_le_longestWord (ops : List (List Char × List Char)) (w : List Char)
    (hw : w ∈ ops.map Prod.fst) : w.length ≤ longestWord ops := by
  obtain ⟨e, he, hew⟩ := List.mem_map.1 hw
  have hrefl : (ops.map (fun e => e.1.length)).foldr max 0 ≤ longestWord ops := Nat.le_refl _
  have := (foldr_max_le_iff (ops.map (fun e => e.1.length)) (longestWord ops)).1
    hrefl e.1.length (List.mem_map.2 ⟨e, he, rfl⟩)
  rw [← hew]
  exact this

/-- The paths of a trie built from the empty trie: the root and the prefixes
of the inserted words. -/
theorem walk_insertAll_empty (ops : List (List Char × List Char)) (hops : ValidOps ops)
    (v : List Char) :
    walk (insertAll empty ops).trie v ≠ .null ↔ (v = [] ∨ ∃ w ∈ ops.map Prod.fst, v <+: w) := by
  rw [Ne, walk_insertAll empty ops hops v]
  cases v with
  | nil =>
    simp only [true_or, iff_true, not_and]
    intro h
    exact Trie.noConfusion h
  | cons c v =>
    simp only [walk_empty_cons, true_and, List.cons_ne_nil, false_or, not_forall,
      Classical.not_not, exists_prop]

/-- C17: for every trie built from the empty trie by `insert` calls with words
of lowercase letters (meanings within the node's buffer), the height of the
trie is the length of the longest inserted word (`0` when there is none), and
the calls of `printWordsWithPrefix` started at the node reached by a prefix
`p` nest at most `(longest word length - |p|) + 1` deep, whatever the number of
words.  The recursion is on the children of a node of a finite tree, so every
call returns. -/
theorem print_depth_bounded (ops : List (List Char × List Char)) (hops : ValidOps ops)
    (p : List Char) :
    ∃ t, insertAll empty ops = .done t ∧
      height t = longestWord ops ∧
      printDepth t = longestWord ops + 1 ∧
      printDepth (walk t p) ≤ (longestWord ops - p.length) + 1 ∧
      (walk t p ≠ .null → p.length ≤ longestWord ops) := by
  have hpaths := walk_insertAll_empty ops hops
  have hbound : ∀ v, walk (insertAll empty ops).trie v ≠ .null → v.length ≤ longestWord ops := by
    intro v hv
    rcases (hpaths v).1 hv with h | ⟨w, hw, hvw⟩
    · rw [h]; exact Nat.zero_le _
    · exact Nat.le_trans hvw.length_le (length_le_longestWord ops w hw)
  have hle : printDepth (insertAll empty ops).trie ≤ longestWord ops + 1 := by
    rw [printDepth_le_iff]
    intro v hv
    have := hbound v hv
    omega
  have hall := (printDepth_le_iff (insertAll empty ops).trie
    (printDepth (insertAll empty ops).trie)).1 (Nat.le_refl _)
  have hpos : 0 < printDepth (insertAll empty ops).trie :=
    hall [] ((hpaths []).2 (Or.inl rfl))
  have hge : longestWord ops ≤ printDepth (insertAll empty ops).trie - 1 := by
    unfold longestWord
    rw [foldr_max_le_iff]
    intro x hx
    obtain ⟨e, he, hxe⟩ := List.mem_map.1 hx
    have h1 := hall e.1 ((hpaths e.1).2
      (Or.inr ⟨e.1, List.mem_map.2 ⟨e, he, rfl⟩, List.prefix_refl _⟩))
    omega
  have hdepth : printDepth (insertAll empty ops).trie = longestWord ops + 1 := by omega
  refine ⟨_, (insertAll_spec empty ops hops).1, ?_, hdepth, ?_, ?_⟩
  · unfold height
    omega
  · rw [printDepth_le_iff]
    intro v hv
    rw [← walk_append] at hv
    have := hbound _ hv
    simp only [List.length_append] at this
    omega
  · intro hp
    exact hbound p hp

theorem print_depth_bounded_witness :
    ∃ t, insertAll empty [("cat".toList, "a".toList), ("do".toList, "b".toList)] = .done t ∧
      height t = longestWord [("cat".toList, "a".toList), ("do".toList, "b".toList)] ∧
      printDepth t = longestWord [("cat".toList, "a".toList), ("do".toList, "b".toList)] + 1 ∧
      printDepth (walk t "ca".toList)
        ≤ (longestWord [("cat".toList, "a".toList), ("do".toList, "b".toList)]
            - "ca".toList.length) + 1 ∧
      (walk t "ca".toList ≠ .null →
        "ca".toList.length
          ≤ longestWord [("cat".toList, "a".toList), ("do".toList, "b".toList)]) :=
  print_depth_bounded [("cat".toList, "a".toList), ("do".toList, "b".toList)] (by decide)
    "ca".toList

/-! ## C20: no dead branches -/

theorem searchWithPrefix_missing (t : Trie) (p : List Char) (hp : Lowercase p)
    (ht : t ≠ .null) (hmiss : walk t p = .null) :
    searchWithPrefix t p = some [Line.noWords p] := by
  cases t with
  | null => exact absurd rfl ht
  | node k mn l => exact searchWithPrefixFrom_missing p (.node k mn l) p hp ht hmiss

theorem isTerminalAt_insertAll_empty (ops : List (List Char × List Char)) (hops : ValidOps ops)
    (w : List Char) : IsTerminalAt (insertAll empty ops).trie w ↔ w ∈ ops.map Prod.fst := by
  rw [isTerminalAt_iff_stored, ← lastMeaning_isSome]
  constructor
  · rintro ⟨m, h⟩
    exact ⟨m, by rw [← stored_insertAll_empty ops hops w]; exact h⟩
  · rintro ⟨m, h⟩
    exact ⟨m, by rw [stored_insertAll_empty ops hops w]; exact h⟩

/-- C20: in every trie built from the empty trie by `insert` calls with words
of lowercase letters (meanings within the node's buffer), every node other
than the root is terminal or has a terminal node below it.  So for every
non-empty lowercase prefix `p`, `searchWithPrefix` yields a pair exactly when
the path of `p` exists, and it prints the "no words" message exactly when it
yields no pair, which is exactly when the path of `p` does not exist. -/
theorem no_dead_branches (ops : List (List Char × List Char)) (hops : ValidOps ops)
    (p : List Char) (hp : Lowercase p) (hp1 : p ≠ []) :
    ∃ t L, insertAll empty ops = .done t ∧ searchWithPrefix t p = some L ∧
      (∀ v, v ≠ [] → walk t v ≠ .null → ∃ s, IsTerminalAt t (v ++ s)) ∧
      (entries L ≠ [] ↔ walk t p ≠ .null) ∧
      (L = [Line.noWords p] ↔ entries L = []) ∧
      (L = [Line.noWords p] ↔ walk t p = .null) := by
  have hpaths := walk_insertAll_empty ops hops
  have hinv : ∀ v, v ≠ [] → walk (insertAll empty ops).trie v ≠ .null →
      ∃ s, IsTerminalAt (insertAll empty ops).trie (v ++ s) := by
    intro v hv hwalk
    rcases (hpaths v).1 hwalk with h | ⟨w, hw, ⟨s, hs⟩⟩
    · exact absurd h hv
    · exact ⟨s, by rw [hs]; exact (isTerminalAt_insertAll_empty ops hops w).2 hw⟩
  have hroot : (insertAll empty ops).trie ≠ .null := (hpaths []).2 (Or.inl rfl)
  obtain ⟨L, hL, hmem⟩ := searchWithPrefix_spec (insertAll empty ops).trie p hp
  have hcase : walk (insertAll empty ops).trie p = .null →
      L = [Line.noWords p] := by
    intro hmiss
    have h := searchWithPrefix_missing _ p hp hroot hmiss
    rw [hL] at h
    exact Option.some.inj h
  have hfound : walk (insertAll empty ops).trie p ≠ .null → entries L ≠ [] := by
    intro hpath
    obtain ⟨s, hs⟩ := hinv p hp1 hpath
    obtain ⟨m, hm⟩ := (isTerminalAt_iff_stored _ _).1 hs
    have : (p ++ s, m) ∈ entries L := (hmem (p ++ s) m).2 ⟨⟨s, rfl⟩, hm⟩
    exact List.ne_nil_of_mem this
  have hEntries : entries L ≠ [] ↔ walk (insertAll empty ops).trie p ≠ .null := by
    constructor
    · intro hne hmiss
      rw [hcase hmiss] at hne
      exact hne rfl
    · exact hfound
  have hMsg : L = [Line.noWords p] ↔ walk (insertAll empty ops).trie p = .null := by
    constructor
    · intro hLn
      by_contra hpath
      have := hfound hpath
      rw [hLn] at this
      exact this rfl
    · exact hcase
  refine ⟨_, L, (insertAll_spec empty ops hops).1, hL, hinv, hEntries, ?_, hMsg⟩
  rw [hMsg]
  constructor
  · intro hmiss
    by_contra hne
    exact (hEntries.1 hne) hmiss
  · intro hnil
    by_contra hpath
    exact (hfound hpath) hnil

theorem no_dead_branches_witness :
    ∃ t L, insertAll empty [("cat".toList, "a".toList), ("dog".toList, "c".toList)] = .done t ∧
      searchWithPrefix t "ca".toList = some L ∧
      (∀ v, v ≠ [] → walk t v ≠ .null → ∃ s, IsTerminalAt t (v ++ s)) ∧
      (entries L ≠ [] ↔ walk t "ca".toList ≠ .null) ∧
      (L = [Line.noWords "ca".toList] ↔ entries L = []) ∧
      (L = [Line.noWords "ca".toList] ↔ walk t "ca".toList = .null) :=
  no_dead_branches [("cat".toList, "a".toList), ("dog".toList, "c".toList)] (by decide)
    "ca".toList (by decide) (by decide)

/-! ## C21: a blank line after an entry -/

/-- C21 (the code at the file made of the line `cat x` and a blank line, each
ended by a newline): the blank line does not start with `+`, so the pending
entry `cat` is inserted with its meaning `x` and `meaning` is cleared; `sscanf`
then finds no token and writes neither `word` nor `meaning`, so `word` is
still `cat`.  The `insert` after the loop stores `cat` again, with the empty
meaning, and `cat` is no longer found.  Without the blank line `cat` looks up
to `x`.  An entry before the last one keeps its meaning: with the lines
`dog y`, `cat x` and a blank line, `dog` still looks up to `y`. -/
theorem blank_line_erases_pending_meaning :
    fgetsLines ("cat x".toList ++ '\n' :: ['\n']) [] = ["cat x".toList ++ ['\n'], ['\n']] ∧
      sscanfWordMeaning ['\n'] = (none, none) ∧
      sscanfWordMeaning [' ', ' ', '\n'] = (none, none) ∧
      loadDictFile empty (some ("cat x".toList ++ '\n' :: ['\n']))
        = .done (loadDictFile empty (some ("cat x".toList ++ '\n' :: ['\n']))).trie ∧
      searchMeaning (loadDictFile empty (some ("cat x".toList ++ '\n' :: ['\n']))).trie
          "cat".toList = some [] ∧
      lookup (loadDictFile empty (some ("cat x".toList ++ '\n' :: ['\n']))).trie
          "cat".toList = some none ∧
      lookup (loadDictFile empty (some ("cat x".toList ++ ['\n']))).trie
          "cat".toList = some (some "x".toList) ∧
      lookup (loadDictFile empty (some ("cat x".toList ++ '\n' :: [' ', ' ', '\n']))).trie
          "cat".toList = some none ∧
      searchWithPrefix (loadDictFile empty
          (some ("dog y".toList ++ '\n' :: "cat x".toList ++ '\n' :: ['\n']))).trie []
        = some [Line.entry "cat".toList [], Line.entry "dog".toList "y".toList] :=
  ⟨by decide, by decide, by decide, rfl, by decide, by decide, by decide, by decide,
    by decide⟩

end Proyecto2

